import Mathlib

/-!
Shallow embedding of the e-waste recycling multi-agent simulation
(`src/agent.py`): a global `total_waste` pool drained by collection agents,
whose counters are drained by sorting agents, whose counters are drained in
turn by recycling agents, on a bounded non-toroidal grid, advancing in
discrete steps until `current_step ≥ max_steps` or `total_waste ≤ 0`.

Randomness is embedded explicitly: every call of `random.randint(a, b)` is
modelled by `randint a b seed` for a seed drawn from the ambient oracle
(`AgentRand` / `StepRand`); `randint` is surjective onto `[a, b]` and always
lands in `[a, b]`, so quantifying over all seeds quantifies over all possible
draw sequences.  `random.choice` over a possibly-empty list is `Option`-valued
(`none` models the `IndexError` raised on an empty sequence), so agent steps
and model steps are `Option`-valued.  Python `int` counters are `Int`.
Log records (python f-strings) are rendered as a structured inductive type,
one constructor per `logger.append` site.
-/

inductive AgentKind : Type
  | collector
  | sorter
  | recycler
deriving DecidableEq

/-- One scheduled agent.  `counter` is the single mutable per-agent counter of
`src/agent.py`: `collected_waste` for a `CollectionAgent`, `sorted_waste` for a
`SortingAgent`, `recycled_waste` for a `RecyclingAgent`, depending on `kind`. -/
structure AgentState : Type where
  unique_id : Nat
  kind : AgentKind
  counter : Int
  pos : Nat × Nat
deriving DecidableEq

/-- Structured rendering of the strings appended to `model.logger`, one
constructor per `logger.append` call site in `src/agent.py`. -/
inductive LogEntry : Type
  | stepHeader (n : Nat)
  | wasteAtStart (w : Int)
  | stoppedMaxSteps
  | stoppedAllProcessed
  | newWaste (amount : Int)
  | collectedLog (agentId : Nat) (amount : Int)
  | sortedLog (sorterId : Nat) (collectorId : Nat) (amount : Int)
  | recycledLog (recyclerId : Nat) (sorterId : Nat) (amount : Int)
  | summary (w : Int)
  | separator
deriving DecidableEq

/-- One row recorded by the `DataCollector` (src/agent.py lines 104-123). -/
structure MetricsRow : Type where
  collectedSum : Int
  sortedSum : Int
  recycledSum : Int
  remaining : Int
deriving DecidableEq

/-- The `EWasteModel` state (src/agent.py lines 76-123): grid dimensions,
the scheduler's maintained agent list (insertion order = creation order),
step bookkeeping, the global waste pool, the event log, the metric rows
collected so far, and the `running` flag (set to `True` by the mesa `Model`
base class at construction). -/
structure EWasteModel : Type where
  width : Nat
  height : Nat
  agents : List AgentState
  max_steps : Nat
  current_step : Nat
  total_waste : Int
  logger : List LogEntry
  metrics : List MetricsRow
  running : Bool
deriving DecidableEq

/-- `random.randint a b` drawn with an explicit seed: lands in `[a, b]` for
every seed and attains every value of `[a, b]` as the seed varies. -/
def randint (a b : Int) (seed : Nat) : Int :=
  a + (seed : Int) % (b - a + 1)

/-- `random.choice` over a list with an explicit seed; `none` on an empty
list models the `IndexError` python raises there. -/
def randomChoice {α : Type} (l : List α) (seed : Nat) : Option α :=
  l.get? (seed % l.length)

/-- Modelled from the spec: `MultiGrid.get_neighborhood(pos, moore=True,
include_center=False)` comes from the external mesa library, whose code is
not part of this repository; per the spec it is the set of up-to-8
Moore-adjacent in-bounds cells, the center excluded, clipped at the grid
boundary with no wraparound. -/
def getNeighborhood (width height : Nat) (p : Nat × Nat) : List (Nat × Nat) :=
  ((List.range width).flatMap fun x => (List.range height).map fun y => (x, y)).filter
    fun q => decide (q ≠ p ∧ q.1 - p.1 ≤ 1 ∧ p.1 - q.1 ≤ 1 ∧ q.2 - p.2 ≤ 1 ∧ p.2 - q.2 ≤ 1)

/-- Replace the agent at index `i` (python mutates the object in place;
out-of-range indices leave the list unchanged). -/
def modifyAt (f : AgentState → AgentState) : List AgentState → Nat → List AgentState
  | [], _ => []
  | a :: t, 0 => f a :: t
  | a :: t, n + 1 => a :: modifyAt f t n

/-- Randomness consumed by one agent activation: `draws j` seeds the
`randint` issued while processing the agent at index `j` (a collector uses
`draws 0` for its single draw), `move` seeds the final `random.choice` of
`random_move`. -/
structure AgentRand : Type where
  draws : Nat → Nat
  move : Nat

/-- Randomness consumed by one model step: the regeneration draw seed, the
scheduler's activation order for this step (a permutation of the agent
indices), and the per-activation randomness of each agent index. -/
structure StepRand : Type where
  regen : Nat
  perm : List Nat
  acts : Nat → AgentRand

/-- The shared relocation behavior `random_move` (src/agent.py lines 26-29,
48-51, 70-73): choose uniformly from the Moore neighborhood of the agent's
current cell and move there; `none` when the neighborhood is empty. -/
def random_move (m : EWasteModel) (i : Nat) (seed : Nat) : Option EWasteModel :=
  match m.agents.get? i with
  | none => some m
  | some a =>
    match randomChoice (getNeighborhood m.width m.height a.pos) seed with
    | none => none
    | some q => some { m with agents := modifyAt (fun s => { s with pos := q }) m.agents i }

/-- One iteration of the transfer loop shared verbatim by
`SortingAgent.step` (src/agent.py lines 38-45, with `srcKind = collector`
and `mkLog = LogEntry.sortedLog selfId`) and `RecyclingAgent.step`
(lines 60-67, with `srcKind = sorter` and `mkLog = LogEntry.recycledLog
selfId`): if the agent at index `j` has the source kind and a positive
counter, draw from `[1, min(counter, 5)]`, override to the full counter when
it is at most 5, credit the draining agent at `selfIdx` and debit the source. -/
def drainOne (srcKind : AgentKind) (mkLog : Nat → Int → LogEntry) (selfIdx : Nat)
    (draws : Nat → Nat) (m : EWasteModel) (j : Nat) : EWasteModel :=
  match m.agents.get? j with
  | none => m
  | some a =>
    if a.kind = srcKind ∧ 0 < a.counter then
      let amt0 := randint 1 (min a.counter 5) (draws j)
      let amt := if a.counter ≤ 5 then a.counter else amt0
      { m with
        agents := modifyAt (fun s => { s with counter := s.counter + amt })
            (modifyAt (fun s => { s with counter := s.counter - amt }) m.agents j) selfIdx,
        logger := m.logger ++ [mkLog a.unique_id amt] }
    else m

/-- The full transfer loop `for agent in self.model.schedule.agents: ...` of
`SortingAgent.step` / `RecyclingAgent.step`, iterating the scheduler's
maintained agent list in its fixed insertion order. -/
def drainFrom (srcKind : AgentKind) (mkLog : Nat → Int → LogEntry) (selfIdx : Nat)
    (draws : Nat → Nat) : List Nat → EWasteModel → EWasteModel
  | [], m => m
  | j :: rest, m =>
    drainFrom srcKind mkLog selfIdx draws rest (drainOne srcKind mkLog selfIdx draws m j)

/-- One agent activation, dispatching on the agent's class:
`CollectionAgent.step` (src/agent.py lines 16-24), `SortingAgent.step`
(lines 37-46) or `RecyclingAgent.step` (lines 59-68); every branch ends with
`random_move`. -/
def activateAgent (m : EWasteModel) (i : Nat) (r : AgentRand) : Option EWasteModel :=
  match m.agents.get? i with
  | none => some m
  | some a =>
    match a.kind with
    | AgentKind.collector =>
      let m' :=
        if 0 < m.total_waste then
          let c0 := min (randint 1 5 (r.draws 0)) m.total_waste
          let c := if m.total_waste ≤ 5 then m.total_waste else c0
          { m with
            agents := modifyAt (fun s => { s with counter := s.counter + c }) m.agents i,
            total_waste := m.total_waste - c,
            logger := m.logger ++ [LogEntry.collectedLog a.unique_id c] }
        else m
      random_move m' i r.move
    | AgentKind.sorter =>
      random_move (drainFrom AgentKind.collector (LogEntry.sortedLog a.unique_id) i r.draws
        (List.range m.agents.length) m) i r.move
    | AgentKind.recycler =>
      random_move (drainFrom AgentKind.sorter (LogEntry.recycledLog a.unique_id) i r.draws
        (List.range m.agents.length) m) i r.move

/-- Modelled from the spec: mesa's `RandomActivation.step` (the scheduler,
whose library code is not part of this repository) activates every agent
exactly once, in a fresh random permutation of the maintained agent list;
the permutation arrives here as the explicit index list `perm`. -/
def scheduleStep (acts : Nat → AgentRand) : EWasteModel → List Nat → Option EWasteModel
  | m, [] => some m
  | m, i :: rest =>
    match activateAgent m i (acts i) with
    | none => none
    | some m' => scheduleStep acts m' rest

/-- The row the `DataCollector` records (src/agent.py lines 104-123): the
kind-wise counter sums plus the remaining pool. -/
def collectMetrics (m : EWasteModel) : MetricsRow :=
  { collectedSum :=
      ((m.agents.filter fun a => decide (a.kind = AgentKind.collector)).map AgentState.counter).sum,
    sortedSum :=
      ((m.agents.filter fun a => decide (a.kind = AgentKind.sorter)).map AgentState.counter).sum,
    recycledSum :=
      ((m.agents.filter fun a => decide (a.kind = AgentKind.recycler)).map AgentState.counter).sum,
    remaining := m.total_waste }

/-- The stopping condition checked at the start of `EWasteModel.step`
(src/agent.py line 129). -/
def stopCond (m : EWasteModel) : Prop :=
  m.max_steps ≤ m.current_step ∨ m.total_waste ≤ 0

instance (m : EWasteModel) : Decidable (stopCond m) :=
  inferInstanceAs (Decidable (m.max_steps ≤ m.current_step ∨ m.total_waste ≤ 0))

/-- The two unconditional log appends opening every `EWasteModel.step`
(src/agent.py lines 126-127). -/
def headerPhase (m : EWasteModel) : EWasteModel :=
  { m with logger :=
      m.logger ++ [LogEntry.stepHeader (m.current_step + 1), LogEntry.wasteAtStart m.total_waste] }

/-- The stopped branch of `EWasteModel.step` (src/agent.py lines 129-136):
log which condition(s) fired, clear `running`, and return. -/
def stopPhase (m : EWasteModel) : EWasteModel :=
  let m1 :=
    if m.max_steps ≤ m.current_step then
      { m with logger := m.logger ++ [LogEntry.stoppedMaxSteps] } else m
  let m2 :=
    if m1.total_waste ≤ 0 then
      { m1 with logger := m1.logger ++ [LogEntry.stoppedAllProcessed] } else m1
  { m2 with running := false }

/-- The regeneration rule (src/agent.py lines 138-141): when the pool holds
more than 5 units, add a fresh `randint 5 10` draw and log it. -/
def regenPhase (m : EWasteModel) (seed : Nat) : EWasteModel :=
  if 5 < m.total_waste then
    { m with
      total_waste := m.total_waste + randint 5 10 seed,
      logger := m.logger ++ [LogEntry.newWaste (randint 5 10 seed)] }
  else m

/-- `EWasteModel.step` (src/agent.py lines 125-149): log the header, take the
stopped branch when the stop condition holds, otherwise regenerate, run the
scheduler, collect metrics, log the summary and advance `current_step`. -/
def EWasteModel.step (m : EWasteModel) (r : StepRand) : Option EWasteModel :=
  let m1 := headerPhase m
  if stopCond m1 then some (stopPhase m1)
  else
    match scheduleStep r.acts (regenPhase m1 r.regen) r.perm with
    | none => none
    | some m3 =>
      let m4 := { m3 with metrics := m3.metrics ++ [collectMetrics m3] }
      let m5 :=
        { m4 with logger := m4.logger ++ [LogEntry.summary m4.total_waste, LogEntry.separator] }
      some { m5 with current_step := m5.current_step + 1 }

/-- Iterated `EWasteModel.step`, one `StepRand` per call. -/
def runSteps : EWasteModel → List StepRand → Option EWasteModel
  | m, [] => some m
  | m, r :: rs =>
    match m.step r with
    | none => none
    | some m' => runSteps m' rs

/-- One freshly constructed agent: python places each at
`(randint(0, width-1), randint(0, height-1))`; the two coordinate draws
arrive as the seed pair `posSeed uid`, reduced into range by `%`. -/
def initAgent (posSeed : Nat → Nat × Nat) (width height : Nat)
    (k : AgentKind) (uid : Nat) : AgentState :=
  { unique_id := uid, kind := k, counter := 0,
    pos := ((posSeed uid).1 % width, (posSeed uid).2 % height) }

/-- `EWasteModel.__init__` (src/agent.py lines 77-102): `total_waste = 100`,
`current_step = 0`, collectors with ids `1..nc`, then sorters, then
recyclers, each at a random cell; `running = True` is set by the mesa
`Model` base class. -/
def initModel (width height num_collectors num_sorters num_recyclers max_steps : Nat)
    (posSeed : Nat → Nat × Nat) : EWasteModel :=
  { width := width, height := height,
    agents :=
      ((List.range num_collectors).map fun k =>
        initAgent posSeed width height AgentKind.collector (k + 1))
      ++ ((List.range num_sorters).map fun k =>
        initAgent posSeed width height AgentKind.sorter (num_collectors + 1 + k))
      ++ ((List.range num_recyclers).map fun k =>
        initAgent posSeed width height AgentKind.recycler
          (num_collectors + num_sorters + 1 + k)),
    max_steps := max_steps, current_step := 0, total_waste := 100,
    logger := [], metrics := [], running := true }

/-- States reachable from `init` by any number of steps under any random
draws. -/
inductive Reachable (init : EWasteModel) : EWasteModel → Prop
  | refl : Reachable init init
  | step (r : StepRand) (m m' : EWasteModel) :
      Reachable init m → m.step r = some m' → Reachable init m'

/-- The counter of the agent at index `i`, when present. -/
def counterAt (m : EWasteModel) (i : Nat) : Option Int :=
  (m.agents.get? i).map AgentState.counter

/-- All agent counters, in scheduler list order. -/
def countersOf (m : EWasteModel) : List Int :=
  m.agents.map AgentState.counter

/-- Total units currently held across all agent counters. -/
def agentSum (m : EWasteModel) : Int :=
  (m.agents.map AgentState.counter).sum

/-- Sum of all regeneration amounts recorded in a log. -/
def regenSum (l : List LogEntry) : Int :=
  (l.filterMap fun e =>
    match e with
    | LogEntry.newWaste d => some d
    | _ => none).sum

/-- Whether a log entry records a regeneration draw. -/
def isNewWaste : LogEntry → Bool
  | LogEntry.newWaste _ => true
  | _ => false

/-- The collector id a `sortedLog` record names, if any. -/
def sortedSourceOf : LogEntry → Option Nat
  | LogEntry.sortedLog _ cid _ => some cid
  | _ => none

/-- The collector ids named by the `sortedLog` records of a log, in order. -/
def sortedSources (l : List LogEntry) : List Nat :=
  l.filterMap sortedSourceOf

/-- The log records appended when passing from `m` to `m'`. -/
def logDelta (m m' : EWasteModel) : List LogEntry :=
  m'.logger.drop m.logger.length

/-- The agent ids named by an activation-order index list, restricted to
collection agents. -/
def permCollectorIds (m : EWasteModel) (perm : List Nat) : List Nat :=
  perm.filterMap fun i =>
    (m.agents.get? i).bind fun a =>
      if a.kind = AgentKind.collector then some a.unique_id else none

/-- The amount a collection agent transfers on a step with positive pool
(src/agent.py lines 18-20): a `randint 1 5` draw clamped by the pool, then
overridden to the whole pool when the pool is at most 5. -/
def collectAmt (m : EWasteModel) (r : AgentRand) : Int :=
  if m.total_waste ≤ 5 then m.total_waste else min (randint 1 5 (r.draws 0)) m.total_waste

/-! ### Basic lemmas about the random primitives -/

theorem randint_mem (a b : Int) (seed : Nat) (h : a ≤ b) :
    a ≤ randint a b seed ∧ randint a b seed ≤ b := by
  have h1 : (0 : Int) ≤ (seed : Int) % (b - a + 1) := Int.emod_nonneg _ (by omega)
  have h2 : (seed : Int) % (b - a + 1) < b - a + 1 := Int.emod_lt_of_pos _ (by omega)
  unfold randint
  omega

theorem randomChoice_mem {α : Type} (l : List α) (seed : Nat) (x : α)
    (h : randomChoice l seed = some x) : x ∈ l := by
  unfold randomChoice at h
  exact List.get?_mem h

/-! ### Lemmas about `modifyAt` -/

theorem length_modifyAt (f : AgentState → AgentState) (l : List AgentState) (i : Nat) :
    (modifyAt f l i).length = l.length := by
  induction l generalizing i with
  | nil => rfl
  | cons a t ih =>
    cases i with
    | zero => rfl
    | succ n => simp [modifyAt, ih]

theorem get?_modifyAt_ne (f : AgentState → AgentState) (l : List AgentState) (i j : Nat)
    (h : i ≠ j) : (modifyAt f l i).get? j = l.get? j := by
  induction l generalizing i j with
  | nil => rfl
  | cons a t ih =>
    cases i with
    | zero =>
      cases j with
      | zero => exact absurd rfl h
      | succ n => rfl
    | succ n =>
      cases j with
      | zero => rfl
      | succ k => simpa [modifyAt] using ih n k (by omega)

theorem get?_modifyAt_self (f : AgentState → AgentState) (l : List AgentState) (i : Nat)
    (a : AgentState) (h : l.get? i = some a) : (modifyAt f l i).get? i = some (f a) := by
  induction l generalizing i with
  | nil => simp at h
  | cons x t ih =>
    cases i with
    | zero =>
      simp only [List.get?] at h
      cases h
      rfl
    | succ n => simpa [modifyAt] using ih n (by simpa using h)

theorem modifyAt_get?_none (f : AgentState → AgentState) (l : List AgentState) (i : Nat)
    (h : l.get? i = none) : modifyAt f l i = l := by
  induction l generalizing i with
  | nil => rfl
  | cons x t ih =>
    cases i with
    | zero => simp at h
    | succ n => simp [modifyAt, ih n (by simpa using h)]

theorem sum_map_modifyAt (f : AgentState → AgentState) (g : AgentState → Int)
    (l : List AgentState) (i : Nat) (a : AgentState) (h : l.get? i = some a) :
    ((modifyAt f l i).map g).sum = (l.map g).sum + (g (f a) - g a) := by
  induction l generalizing i with
  | nil => simp at h
  | cons x t ih =>
    cases i with
    | zero =>
      simp only [List.get?] at h
      cases h
      simp [modifyAt]
      ring
    | succ n =>
      have := ih n (by simpa using h)
      simp [modifyAt, this]
      ring

theorem map_modifyAt_invariant {β : Type} (f : AgentState → AgentState) (g : AgentState → β)
    (hgf : ∀ a, g (f a) = g a) (l : List AgentState) (i : Nat) :
    (modifyAt f l i).map g = l.map g := by
  induction l generalizing i with
  | nil => rfl
  | cons x t ih =>
    cases i with
    | zero => simp [modifyAt, hgf]
    | succ n => simp [modifyAt, ih]

/-! ### Lemmas about log sums -/

theorem regenSum_append (l1 l2 : List LogEntry) :
    regenSum (l1 ++ l2) = regenSum l1 + regenSum l2 := by
  simp [regenSum, List.filterMap_append]

theorem regenSum_of_noNew (l : List LogEntry) (h : ∀ e ∈ l, isNewWaste e = false) :
    regenSum l = 0 := by
  induction l with
  | nil => rfl
  | cons e t ih =>
    have he := h e (List.mem_cons_self e t)
    have ht := ih fun x hx => h x (List.mem_cons_of_mem e hx)
    cases e <;> simp_all [regenSum, isNewWaste, List.filterMap_cons]

/-! ### Structural helpers for invariance proofs -/

/-- The identity of an agent record minus its counter: id, kind, position. -/
def shapeOf (a : AgentState) : Nat × AgentKind × (Nat × Nat) :=
  (a.unique_id, a.kind, a.pos)

/-- Everything a transfer loop leaves untouched apart from the pool, the log
and the agent counters/positions. -/
def sameSkeleton (m m' : EWasteModel) : Prop :=
  m'.width = m.width ∧ m'.height = m.height ∧ m'.max_steps = m.max_steps ∧
  m'.current_step = m.current_step ∧ m'.metrics = m.metrics ∧ m'.running = m.running ∧
  m'.agents.length = m.agents.length

theorem sameSkeleton_refl (m : EWasteModel) : sameSkeleton m m :=
  ⟨rfl, rfl, rfl, rfl, rfl, rfl, rfl⟩

theorem sameSkeleton_trans {m1 m2 m3 : EWasteModel}
    (h1 : sameSkeleton m1 m2) (h2 : sameSkeleton m2 m3) : sameSkeleton m1 m3 := by
  obtain ⟨a1, b1, c1, d1, e1, f1, g1⟩ := h1
  obtain ⟨a2, b2, c2, d2, e2, f2, g2⟩ := h2
  exact ⟨a2.trans a1, b2.trans b1, c2.trans c1, d2.trans d1, e2.trans e1, f2.trans f1,
    g2.trans g1⟩

/-! ### Lemmas about `drainOne` -/

theorem drainOne_cases (srcK : AgentKind) (mkL : Nat → Int → LogEntry) (si : Nat)
    (dr : Nat → Nat) (m : EWasteModel) (j : Nat) :
    (drainOne srcK mkL si dr m j = m ∧
      ∀ a, m.agents.get? j = some a → ¬(a.kind = srcK ∧ 0 < a.counter)) ∨
    ∃ a, m.agents.get? j = some a ∧ a.kind = srcK ∧ 0 < a.counter ∧
      drainOne srcK mkL si dr m j =
        { m with
          agents := modifyAt
              (fun s => { s with counter := s.counter +
                (if a.counter ≤ 5 then a.counter else randint 1 (min a.counter 5) (dr j)) })
              (modifyAt (fun s => { s with counter := s.counter -
                (if a.counter ≤ 5 then a.counter else randint 1 (min a.counter 5) (dr j)) })
                m.agents j) si,
          logger := m.logger ++
            [mkL a.unique_id
              (if a.counter ≤ 5 then a.counter else randint 1 (min a.counter 5) (dr j))] } := by
  unfold drainOne
  split
  · next heq => exact Or.inl ⟨rfl, fun a ha => by rw [heq] at ha; cases ha⟩
  · next a heq =>
    split
    · next hc => exact Or.inr ⟨a, heq, hc.1, hc.2, rfl⟩
    · next hc =>
      refine Or.inl ⟨rfl, fun b hb => ?_⟩
      rw [heq] at hb
      cases hb
      exact hc

theorem amt_bounds (c : Int) (s : Nat) (h0 : 0 < c) :
    0 < (if c ≤ 5 then c else randint 1 (min c 5) s) ∧
    (if c ≤ 5 then c else randint 1 (min c 5) s) ≤ c := by
  split
  · exact ⟨h0, le_refl c⟩
  · next h =>
    have hmin : min c 5 = 5 := min_eq_right (by omega)
    rw [hmin]
    have := randint_mem 1 5 s (by norm_num)
    omega

theorem drainOne_skeleton (srcK : AgentKind) (mkL : Nat → Int → LogEntry) (si : Nat)
    (dr : Nat → Nat) (m : EWasteModel) (j : Nat) :
    sameSkeleton m (drainOne srcK mkL si dr m j) ∧
    (drainOne srcK mkL si dr m j).total_waste = m.total_waste := by
  rcases drainOne_cases srcK mkL si dr m j with ⟨h, _⟩ | ⟨a, _, _, _, h⟩
  · rw [h]; exact ⟨sameSkeleton_refl m, rfl⟩
  · rw [h]
    exact ⟨⟨rfl, rfl, rfl, rfl, rfl, rfl, by simp [length_modifyAt]⟩, rfl⟩

theorem drainOne_logger (srcK : AgentKind) (mkL : Nat → Int → LogEntry) (si : Nat)
    (dr : Nat → Nat) (m : EWasteModel) (j : Nat) :
    ∃ d, (drainOne srcK mkL si dr m j).logger = m.logger ++ d ∧
      ∀ e ∈ d, ∃ c x, e = mkL c x := by
  rcases drainOne_cases srcK mkL si dr m j with ⟨h, _⟩ | ⟨a, _, _, _, h⟩
  · exact ⟨[], by rw [h]; simp, by simp⟩
  · refine ⟨_, by rw [h], ?_⟩
    intro e he
    rcases List.mem_singleton.mp he with rfl
    exact ⟨_, _, rfl⟩

theorem get?_modifyAt_shape (f : AgentState → AgentState)
    (hf : ∀ a, shapeOf (f a) = shapeOf a) (l : List AgentState) (i k : Nat) :
    ((modifyAt f l i).get? k).map shapeOf = (l.get? k).map shapeOf := by
  by_cases h : i = k
  · subst h
    rcases hl : l.get? i with _ | a
    · rw [modifyAt_get?_none f l i hl, hl]
    · rw [get?_modifyAt_self f l i a hl]
      simp [hf]
  · rw [get?_modifyAt_ne f l i k h]

theorem get?_modifyAt_counter_shape (g : AgentState → Int) (l : List AgentState) (i k : Nat) :
    ((modifyAt (fun s => { s with counter := g s }) l i).get? k).map shapeOf =
      (l.get? k).map shapeOf :=
  get?_modifyAt_shape (fun s => { s with counter := g s }) (fun _ => rfl) l i k

theorem drainOne_shape (srcK : AgentKind) (mkL : Nat → Int → LogEntry) (si : Nat)
    (dr : Nat → Nat) (m : EWasteModel) (j k : Nat) :
    ((drainOne srcK mkL si dr m j).agents.get? k).map shapeOf =
      (m.agents.get? k).map shapeOf := by
  rcases drainOne_cases srcK mkL si dr m j with ⟨h, _⟩ | ⟨a, _, _, _, h⟩
  · rw [h]
  · rw [h]
    dsimp only
    rw [get?_modifyAt_counter_shape, get?_modifyAt_counter_shape]

theorem drainOne_get?_other (srcK : AgentKind) (mkL : Nat → Int → LogEntry) (si : Nat)
    (dr : Nat → Nat) (m : EWasteModel) (j k : Nat) (hkj : k ≠ j) (hksi : k ≠ si) :
    (drainOne srcK mkL si dr m j).agents.get? k = m.agents.get? k := by
  rcases drainOne_cases srcK mkL si dr m j with ⟨h, _⟩ | ⟨a, _, _, _, h⟩
  · rw [h]
  · rw [h]
    dsimp only
    rw [get?_modifyAt_ne _ _ si k (Ne.symm hksi), get?_modifyAt_ne _ _ j k (Ne.symm hkj)]

theorem counterAt_some (m : EWasteModel) (i : Nat) (c : Int) (h : counterAt m i = some c) :
    ∃ a, m.agents.get? i = some a ∧ a.counter = c := by
  unfold counterAt at h
  rcases hm : m.agents.get? i with _ | a
  · rw [hm] at h; simp at h
  · rw [hm] at h
    simp only [Option.map_some'] at h
    cases h
    exact ⟨a, rfl, rfl⟩

theorem get?_modifyAt_map {β : Type} (f : AgentState → AgentState) (g : AgentState → β)
    (hgf : ∀ a, g (f a) = g a) (l : List AgentState) (i k : Nat) :
    ((modifyAt f l i).get? k).map g = (l.get? k).map g := by
  by_cases h : i = k
  · subst h
    rcases hl : l.get? i with _ | a
    · rw [modifyAt_get?_none f l i hl, hl]
    · rw [get?_modifyAt_self f l i a hl]
      simp [hgf]
  · rw [get?_modifyAt_ne f l i k h]

theorem mem_modifyAt_of_get? (f : AgentState → AgentState) (l : List AgentState) (i : Nat)
    (b : AgentState) (hb : b ∈ modifyAt f l i) :
    b ∈ l ∨ ∃ a, l.get? i = some a ∧ b = f a := by
  induction l generalizing i with
  | nil => simp [modifyAt] at hb
  | cons x t ih =>
    cases i with
    | zero =>
      rcases List.mem_cons.mp hb with h | h
      · exact Or.inr ⟨x, rfl, h⟩
      · exact Or.inl (List.mem_cons_of_mem x h)
    | succ n =>
      rcases List.mem_cons.mp hb with h | h
      · exact Or.inl (h ▸ List.mem_cons_self x t)
      · rcases ih n h with h2 | ⟨a, ha, hba⟩
        · exact Or.inl (List.mem_cons_of_mem x h2)
        · exact Or.inr ⟨a, by simpa using ha, hba⟩

theorem get?_kind_of_shape (m m' : EWasteModel) (k : Nat)
    (h : (m'.agents.get? k).map shapeOf = (m.agents.get? k).map shapeOf)
    (a' : AgentState) (ha' : m'.agents.get? k = some a') :
    ∃ a, m.agents.get? k = some a ∧ a'.unique_id = a.unique_id ∧ a'.kind = a.kind ∧
      a'.pos = a.pos := by
  rw [ha'] at h
  rcases hm : m.agents.get? k with _ | a
  · rw [hm] at h; simp at h
  · rw [hm] at h
    simp only [Option.map_some', shapeOf, Option.some.injEq, Prod.mk.injEq] at h
    exact ⟨a, rfl, h.1, h.2.1, h.2.2⟩

theorem drainOne_counter_si_mono (srcK : AgentKind) (mkL : Nat → Int → LogEntry) (si : Nat)
    (dr : Nat → Nat) (m : EWasteModel) (j : Nat)
    (hself : ∀ a, m.agents.get? si = some a → ¬ a.kind = srcK)
    (c : Int) (hc : counterAt m si = some c) :
    ∃ c', counterAt (drainOne srcK mkL si dr m j) si = some c' ∧ c ≤ c' := by
  rcases drainOne_cases srcK mkL si dr m j with ⟨h, _⟩ | ⟨a, ha, hk, hpos, h⟩
  · exact ⟨c, by rw [h]; exact hc, le_refl c⟩
  · obtain ⟨a0, ha0, hca0⟩ := counterAt_some m si c hc
    have hji : j ≠ si := fun hh => hself a (hh ▸ ha) hk
    have hamt := amt_bounds a.counter (dr j) hpos
    refine ⟨a0.counter +
      (if a.counter ≤ 5 then a.counter else randint 1 (min a.counter 5) (dr j)), ?_, by omega⟩
    rw [h]
    unfold counterAt
    dsimp only
    rw [get?_modifyAt_self _ _ si _ (by rw [get?_modifyAt_ne _ _ j si hji]; exact ha0)]
    rfl

theorem drainOne_exact (srcK : AgentKind) (mkL : Nat → Int → LogEntry) (si : Nat)
    (dr : Nat → Nat) (m : EWasteModel) (j : Nat) (b : AgentState)
    (hj : m.agents.get? j = some b) (hkb : b.kind = srcK) (h0 : 0 < b.counter)
    (h5 : b.counter ≤ 5) (hji : j ≠ si) (a0 : AgentState)
    (hsi : m.agents.get? si = some a0) :
    counterAt (drainOne srcK mkL si dr m j) j = some 0 ∧
    counterAt (drainOne srcK mkL si dr m j) si = some (a0.counter + b.counter) ∧
    (drainOne srcK mkL si dr m j).logger = m.logger ++ [mkL b.unique_id b.counter] := by
  rcases drainOne_cases srcK mkL si dr m j with ⟨_, hng⟩ | ⟨a, ha, hk, hpos, h⟩
  · exact absurd ⟨hkb, h0⟩ (hng b hj)
  · rw [hj] at ha
    cases ha
    rw [h]
    rw [if_pos h5]
    unfold counterAt
    dsimp only
    refine ⟨?_, ?_, rfl⟩
    · rw [get?_modifyAt_ne _ _ si j (Ne.symm hji),
        get?_modifyAt_self _ _ j _ hj]
      simp
    · rw [get?_modifyAt_self _ _ si _ (by rw [get?_modifyAt_ne _ _ j si hji]; exact hsi)]
      rfl

theorem drainOne_nonneg (srcK : AgentKind) (mkL : Nat → Int → LogEntry) (si : Nat)
    (dr : Nat → Nat) (m : EWasteModel) (j : Nat)
    (hc : ∀ a ∈ m.agents, 0 ≤ a.counter) :
    ∀ a ∈ (drainOne srcK mkL si dr m j).agents, 0 ≤ a.counter := by
  rcases drainOne_cases srcK mkL si dr m j with ⟨h, _⟩ | ⟨a, ha, hk, hpos, h⟩
  · rw [h]; exact hc
  · rw [h]
    intro b hb
    dsimp only at hb
    have hamt := amt_bounds a.counter (dr j) hpos
    have hinner : ∀ y ∈ modifyAt (fun s => { s with counter := s.counter -
        (if a.counter ≤ 5 then a.counter else randint 1 (min a.counter 5) (dr j)) })
        m.agents j, 0 ≤ y.counter := by
      intro y hy
      rcases mem_modifyAt_of_get? _ _ _ y hy with hmem | ⟨z, hz, rfl⟩
      · exact hc y hmem
      · rw [hz] at ha
        cases ha
        dsimp only
        omega
    rcases mem_modifyAt_of_get? _ _ _ b hb with hmem | ⟨y, hy, rfl⟩
    · exact hinner b hmem
    · have hymem : y ∈ modifyAt (fun s => { s with counter := s.counter -
          (if a.counter ≤ 5 then a.counter else randint 1 (min a.counter 5) (dr j)) })
          m.agents j := List.get?_mem hy
      have := hinner y hymem
      dsimp only
      omega

theorem drainOne_sum (srcK : AgentKind) (mkL : Nat → Int → LogEntry) (si : Nat)
    (dr : Nat → Nat) (m : EWasteModel) (j : Nat) (hsi : si < m.agents.length) :
    agentSum (drainOne srcK mkL si dr m j) = agentSum m := by
  rcases drainOne_cases srcK mkL si dr m j with ⟨h, _⟩ | ⟨a, ha, hk, hpos, h⟩
  · rw [h]
  · rw [h]
    unfold agentSum
    dsimp only
    obtain ⟨y, hy⟩ : ∃ y, (modifyAt (fun s => { s with counter := s.counter -
        (if a.counter ≤ 5 then a.counter else randint 1 (min a.counter 5) (dr j)) })
        m.agents j).get? si = some y := by
      have hlen : si < (modifyAt (fun s => { s with counter := s.counter -
          (if a.counter ≤ 5 then a.counter else randint 1 (min a.counter 5) (dr j)) })
          m.agents j).length := by
        rw [length_modifyAt]; exact hsi
      exact ⟨_, List.get?_eq_get hlen⟩
    rw [sum_map_modifyAt _ _ _ si y hy, sum_map_modifyAt _ _ _ j a ha]
    dsimp only
    ring

/-! ### Lemmas about `drainFrom` -/

theorem drainFrom_skeleton (srcK : AgentKind) (mkL : Nat → Int → LogEntry) (si : Nat)
    (dr : Nat → Nat) (L : List Nat) :
    ∀ m, sameSkeleton m (drainFrom srcK mkL si dr L m) ∧
      (drainFrom srcK mkL si dr L m).total_waste = m.total_waste := by
  induction L with
  | nil => exact fun m => ⟨sameSkeleton_refl m, rfl⟩
  | cons j L ih =>
    intro m
    have h1 := drainOne_skeleton srcK mkL si dr m j
    have h2 := ih (drainOne srcK mkL si dr m j)
    exact ⟨sameSkeleton_trans h1.1 h2.1, by
      simp only [drainFrom]
      rw [h2.2, h1.2]⟩

theorem drainFrom_logger (srcK : AgentKind) (mkL : Nat → Int → LogEntry) (si : Nat)
    (dr : Nat → Nat) (L : List Nat) :
    ∀ m, ∃ d, (drainFrom srcK mkL si dr L m).logger = m.logger ++ d ∧
      ∀ e ∈ d, ∃ c x, e = mkL c x := by
  induction L with
  | nil => exact fun m => ⟨[], by simp [drainFrom], by simp⟩
  | cons j L ih =>
    intro m
    obtain ⟨d1, hd1, he1⟩ := drainOne_logger srcK mkL si dr m j
    obtain ⟨d2, hd2, he2⟩ := ih (drainOne srcK mkL si dr m j)
    refine ⟨d1 ++ d2, ?_, ?_⟩
    · simp only [drainFrom]
      rw [hd2, hd1, List.append_assoc]
    · intro e he
      rcases List.mem_append.mp he with h | h
      · exact he1 e h
      · exact he2 e h

theorem drainFrom_shape (srcK : AgentKind) (mkL : Nat → Int → LogEntry) (si : Nat)
    (dr : Nat → Nat) (L : List Nat) :
    ∀ m k, ((drainFrom srcK mkL si dr L m).agents.get? k).map shapeOf =
      (m.agents.get? k).map shapeOf := by
  induction L with
  | nil => intro m k; rfl
  | cons j L ih =>
    intro m k
    simp only [drainFrom]
    rw [ih (drainOne srcK mkL si dr m j) k, drainOne_shape]

theorem drainFrom_get?_other (srcK : AgentKind) (mkL : Nat → Int → LogEntry) (si : Nat)
    (dr : Nat → Nat) (L : List Nat) :
    ∀ m k, k ∉ L → k ≠ si →
      (drainFrom srcK mkL si dr L m).agents.get? k = m.agents.get? k := by
  induction L with
  | nil => intro m k _ _; rfl
  | cons j L ih =>
    intro m k hk hksi
    have hkj : k ≠ j := fun hh => hk (hh ▸ List.mem_cons_self j L)
    have hkL : k ∉ L := fun hh => hk (List.mem_cons_of_mem j hh)
    simp only [drainFrom]
    rw [ih (drainOne srcK mkL si dr m j) k hkL hksi,
      drainOne_get?_other srcK mkL si dr m j k hkj hksi]

theorem drainFrom_counter_si_mono (srcK : AgentKind) (mkL : Nat → Int → LogEntry) (si : Nat)
    (dr : Nat → Nat) (L : List Nat) :
    ∀ m c, (∀ a, m.agents.get? si = some a → ¬ a.kind = srcK) →
      counterAt m si = some c →
      ∃ c', counterAt (drainFrom srcK mkL si dr L m) si = some c' ∧ c ≤ c' := by
  induction L with
  | nil => exact fun m c _ hc => ⟨c, hc, le_refl c⟩
  | cons j L ih =>
    intro m c hself hc
    obtain ⟨c1, hc1, hle1⟩ := drainOne_counter_si_mono srcK mkL si dr m j hself c hc
    have hself1 : ∀ a, (drainOne srcK mkL si dr m j).agents.get? si = some a →
        ¬ a.kind = srcK := by
      intro a' ha'
      obtain ⟨a, ha, _, hkk, _⟩ :=
        get?_kind_of_shape m (drainOne srcK mkL si dr m j) si
          (drainOne_shape srcK mkL si dr m j si) a' ha'
      rw [hkk]
      exact hself a ha
    obtain ⟨c', hc', hle2⟩ := ih (drainOne srcK mkL si dr m j) c1 hself1 hc1
    exact ⟨c', by simpa [drainFrom] using hc', hle1.trans hle2⟩

theorem drainFrom_drains (srcK : AgentKind) (mkL : Nat → Int → LogEntry) (si : Nat)
    (dr : Nat → Nat) (L : List Nat) :
    ∀ m j b a0, L.Nodup → j ∈ L →
      m.agents.get? j = some b → b.kind = srcK → 0 < b.counter → b.counter ≤ 5 →
      m.agents.get? si = some a0 → ¬ a0.kind = srcK →
      counterAt (drainFrom srcK mkL si dr L m) j = some 0 ∧
      ∃ c', counterAt (drainFrom srcK mkL si dr L m) si = some c' ∧
        a0.counter + b.counter ≤ c' := by
  induction L with
  | nil => intro m j b a0 _ hj; simp at hj
  | cons k L ih =>
    intro m j b a0 hnd hjL hj hkb h0 h5 hsi hks
    have hji : j ≠ si := by
      intro hh
      rw [hh, hsi] at hj
      cases hj
      exact hks hkb
    by_cases hkj : k = j
    · subst hkj
      have hknotL : k ∉ L := (List.nodup_cons.mp hnd).1
      obtain ⟨hz, hself, hlog⟩ :=
        drainOne_exact srcK mkL si dr m k b hj hkb h0 h5 hji a0 hsi
      constructor
      · simp only [drainFrom]
        unfold counterAt at hz ⊢
        rw [drainFrom_get?_other srcK mkL si dr L _ k hknotL hji]
        exact hz
      · have hself1 : ∀ a, (drainOne srcK mkL si dr m k).agents.get? si = some a →
            ¬ a.kind = srcK := by
          intro a' ha'
          obtain ⟨a, ha, _, hkk, _⟩ :=
            get?_kind_of_shape m (drainOne srcK mkL si dr m k) si
              (drainOne_shape srcK mkL si dr m k si) a' ha'
          rw [ha] at hsi
          cases hsi
          rw [hkk]
          exact hks
        obtain ⟨c', hc', hle⟩ := drainFrom_counter_si_mono srcK mkL si dr L
          (drainOne srcK mkL si dr m k) (a0.counter + b.counter) hself1 hself
        exact ⟨c', by simpa [drainFrom] using hc', hle⟩
    · have hjL2 : j ∈ L := by
        rcases List.mem_cons.mp hjL with h | h
        · exact absurd h.symm hkj
        · exact h
      have hj1 : (drainOne srcK mkL si dr m k).agents.get? j = some b := by
        rw [drainOne_get?_other srcK mkL si dr m k j (fun hh => hkj hh.symm) hji]
        exact hj
      obtain ⟨c1, hc1, hle1⟩ := drainOne_counter_si_mono srcK mkL si dr m k
        (fun a ha => by rw [ha] at hsi; cases hsi; exact hks) a0.counter
        (by unfold counterAt; rw [hsi]; rfl)
      obtain ⟨a1, ha1, hca1⟩ := counterAt_some _ si c1 hc1
      have hka1 : ¬ a1.kind = srcK := by
        obtain ⟨a, ha, _, hkk, _⟩ :=
          get?_kind_of_shape m (drainOne srcK mkL si dr m k) si
            (drainOne_shape srcK mkL si dr m k si) a1 ha1
        rw [ha] at hsi
        cases hsi
        rw [hkk]
        exact hks
      obtain ⟨hz, c', hc', hle2⟩ := ih (drainOne srcK mkL si dr m k) j b a1
        (List.nodup_cons.mp hnd).2 hjL2 hj1 hkb h0 h5 ha1 hka1
      refine ⟨by simpa [drainFrom] using hz, c', by simpa [drainFrom] using hc', ?_⟩
      rw [hca1] at hle2
      omega

theorem drainFrom_nonneg (srcK : AgentKind) (mkL : Nat → Int → LogEntry) (si : Nat)
    (dr : Nat → Nat) (L : List Nat) :
    ∀ m, (∀ a ∈ m.agents, 0 ≤ a.counter) →
      ∀ a ∈ (drainFrom srcK mkL si dr L m).agents, 0 ≤ a.counter := by
  induction L with
  | nil => exact fun m hm => hm
  | cons j L ih =>
    intro m hm
    have h1 := drainOne_nonneg srcK mkL si dr m j hm
    simpa [drainFrom] using ih (drainOne srcK mkL si dr m j) h1

theorem drainFrom_sum (srcK : AgentKind) (mkL : Nat → Int → LogEntry) (si : Nat)
    (dr : Nat → Nat) (L : List Nat) :
    ∀ m, si < m.agents.length → agentSum (drainFrom srcK mkL si dr L m) = agentSum m := by
  induction L with
  | nil => intro m _; rfl
  | cons j L ih =>
    intro m hsi
    have hsi1 : si < (drainOne srcK mkL si dr m j).agents.length := by
      rw [(drainOne_skeleton srcK mkL si dr m j).1.2.2.2.2.2.2]
      exact hsi
    have h2 := ih (drainOne srcK mkL si dr m j) hsi1
    simp only [drainFrom]
    rw [h2, drainOne_sum srcK mkL si dr m j hsi]

theorem filterMap_range_get? {α β : Type} (l : List α) (f : α → Option β) :
    (List.range l.length).filterMap (fun j => (l.get? j).bind f) = l.filterMap f := by
  induction l with
  | nil => simp
  | cons x t ih =>
    have hcomp : ((fun j => ((x :: t).get? j).bind f) ∘ Nat.succ) =
        fun j => (t.get? j).bind f := rfl
    simp only [List.length_cons, List.range_succ_eq_map, List.filterMap_cons,
      List.filterMap_map, hcomp, ih]
    rfl

theorem drainFrom_sources (srcK : AgentKind) (mkL : Nat → Int → LogEntry) (si : Nat)
    (dr : Nat → Nat) (ext : LogEntry → Option Nat)
    (hext : ∀ c x, ext (mkL c x) = some c) (L : List Nat) :
    ∀ m, L.Nodup →
      (∀ a, m.agents.get? si = some a → ¬ a.kind = srcK) →
      ((drainFrom srcK mkL si dr L m).logger.drop m.logger.length).filterMap ext =
        L.filterMap (fun j => (m.agents.get? j).bind
          (fun a => if a.kind = srcK ∧ 0 < a.counter then some a.unique_id else none)) := by
  induction L with
  | nil => intro m _ _; simp [drainFrom]
  | cons j L ih =>
    intro m hnd hself
    have hself1 : ∀ a, (drainOne srcK mkL si dr m j).agents.get? si = some a →
        ¬ a.kind = srcK := by
      intro a' ha'
      obtain ⟨a, ha, _, hkk, _⟩ :=
        get?_kind_of_shape m (drainOne srcK mkL si dr m j) si
          (drainOne_shape srcK mkL si dr m j si) a' ha'
      rw [hkk]
      exact hself a ha
    have hih := ih (drainOne srcK mkL si dr m j) (List.nodup_cons.mp hnd).2 hself1
    have hcongr : L.filterMap (fun k => ((drainOne srcK mkL si dr m j).agents.get? k).bind
        (fun a => if a.kind = srcK ∧ 0 < a.counter then some a.unique_id else none)) =
        L.filterMap (fun k => (m.agents.get? k).bind
          (fun a => if a.kind = srcK ∧ 0 < a.counter then some a.unique_id else none)) := by
      apply List.filterMap_congr
      intro k hkL
      by_cases hksi : k = si
      · rcases h1 : (drainOne srcK mkL si dr m j).agents.get? k with _ | a1
        · rcases h0 : m.agents.get? k with _ | a0
          · rfl
          · exfalso
            have hsh := drainOne_shape srcK mkL si dr m j k
            rw [h1, h0] at hsh
            simp at hsh
        · obtain ⟨a0, h0, _, hkk, _⟩ :=
            get?_kind_of_shape m (drainOne srcK mkL si dr m j) k
              (drainOne_shape srcK mkL si dr m j k) a1 h1
          have hn1 : ¬ a1.kind = srcK := hself1 a1 (hksi ▸ h1)
          have hn0 : ¬ a0.kind = srcK := by
            rw [hkk] at hn1
            exact hn1
          rw [h0, Option.some_bind', Option.some_bind',
            if_neg (fun hh => hn1 hh.1), if_neg (fun hh => hn0 hh.1)]
      · have hkj : k ≠ j := fun hh => (List.nodup_cons.mp hnd).1 (hh ▸ hkL)
        rw [drainOne_get?_other srcK mkL si dr m j k hkj hksi]
    rcases drainOne_cases srcK mkL si dr m j with ⟨heq, hng⟩ | ⟨a, ha, hk, hpos, heq⟩
    · have hjnone : ((m.agents.get? j).bind
          (fun a => if a.kind = srcK ∧ 0 < a.counter then some a.unique_id else none)) =
          none := by
        rcases hj : m.agents.get? j with _ | a
        · rfl
        · rw [Option.some_bind', if_neg (hng a hj)]
      have hstep : drainFrom srcK mkL si dr (j :: L) m = drainFrom srcK mkL si dr L m := by
        simp only [drainFrom, heq]
      have hsplit : (j :: L).filterMap
          (fun k => (m.agents.get? k).bind
            (fun a => if a.kind = srcK ∧ 0 < a.counter then some a.unique_id else none)) =
          L.filterMap (fun k => (m.agents.get? k).bind
            (fun a => if a.kind = srcK ∧ 0 < a.counter then some a.unique_id else none)) :=
        List.filterMap_cons_none hjnone
      rw [heq] at hih
      rw [hstep, hih, hsplit]
    · have hjsome : ((m.agents.get? j).bind
          (fun a => if a.kind = srcK ∧ 0 < a.counter then some a.unique_id else none)) =
          some a.unique_id := by
        rw [ha, Option.some_bind', if_pos ⟨hk, hpos⟩]
      obtain ⟨d2, hd2, _⟩ := drainFrom_logger srcK mkL si dr L (drainOne srcK mkL si dr m j)
      have hlog1 : (drainOne srcK mkL si dr m j).logger = m.logger ++
          [mkL a.unique_id (if a.counter ≤ 5 then a.counter
            else randint 1 (min a.counter 5) (dr j))] := by
        rw [heq]
      have hfull : (drainFrom srcK mkL si dr (j :: L) m).logger = m.logger ++
          ([mkL a.unique_id (if a.counter ≤ 5 then a.counter
            else randint 1 (min a.counter 5) (dr j))] ++ d2) := by
        simp only [drainFrom]
        rw [hd2, hlog1, List.append_assoc]
      have hdrop2 : (drainFrom srcK mkL si dr L (drainOne srcK mkL si dr m j)).logger.drop
          (drainOne srcK mkL si dr m j).logger.length = d2 := by
        rw [hd2, List.drop_left]
      have hsplit : (j :: L).filterMap
          (fun k => (m.agents.get? k).bind
            (fun a => if a.kind = srcK ∧ 0 < a.counter then some a.unique_id else none)) =
          a.unique_id :: L.filterMap (fun k => (m.agents.get? k).bind
            (fun a => if a.kind = srcK ∧ 0 < a.counter then some a.unique_id else none)) :=
        List.filterMap_cons_some hjsome
      have hhead : List.filterMap ext
          [mkL a.unique_id (if a.counter ≤ 5 then a.counter
            else randint 1 (min a.counter 5) (dr j))] = [a.unique_id] := by
        simp [hext]
      rw [hdrop2] at hih
      rw [hfull, List.drop_left, List.filterMap_append, hhead, hih, hcongr, hsplit]
      rfl

/-! ### Lemmas about `random_move` and agent activation -/

theorem random_move_cases (m : EWasteModel) (i : Nat) (seed : Nat) (m' : EWasteModel)
    (h : random_move m i seed = some m') :
    m' = m ∨ ∃ a q, m.agents.get? i = some a ∧ q ∈ getNeighborhood m.width m.height a.pos ∧
      m' = { m with agents := modifyAt (fun s => { s with pos := q }) m.agents i } := by
  unfold random_move at h
  split at h
  · cases h
    exact Or.inl rfl
  · next a heq =>
    split at h
    · cases h
    · next q hq =>
      cases h
      exact Or.inr ⟨a, q, heq, randomChoice_mem _ _ _ hq, rfl⟩

theorem nonneg_iff_countersOf (m : EWasteModel) :
    (∀ a ∈ m.agents, 0 ≤ a.counter) ↔ ∀ x ∈ countersOf m, 0 ≤ x := by
  unfold countersOf
  constructor
  · intro h x hx
    obtain ⟨a, ha, rfl⟩ := List.mem_map.mp hx
    exact h a ha
  · intro h a ha
    exact h _ (List.mem_map_of_mem _ ha)

theorem random_move_frame (m : EWasteModel) (i : Nat) (seed : Nat) (m' : EWasteModel)
    (h : random_move m i seed = some m') :
    sameSkeleton m m' ∧ m'.total_waste = m.total_waste ∧ m'.logger = m.logger ∧
    countersOf m' = countersOf m ∧
    (∀ k, (m'.agents.get? k).map AgentState.counter =
      (m.agents.get? k).map AgentState.counter) := by
  rcases random_move_cases m i seed m' h with h1 | ⟨a, q, ha, hq, h1⟩
  · subst h1
    exact ⟨sameSkeleton_refl _, rfl, rfl, rfl, fun k => rfl⟩
  · subst h1
    refine ⟨⟨rfl, rfl, rfl, rfl, rfl, rfl, by simp [length_modifyAt]⟩, rfl, rfl, ?_, ?_⟩
    · unfold countersOf
      exact map_modifyAt_invariant (fun s => { s with pos := q }) AgentState.counter
        (fun s => rfl) m.agents i
    · intro k
      exact get?_modifyAt_map (fun s => { s with pos := q }) AgentState.counter
        (fun s => rfl) m.agents i k

/-- Everything every agent activation preserves or changes in a controlled
way: the skeleton, a non-increasing pool, conservation of counters plus pool,
a log extension free of regeneration records, and non-negativity. -/
def stepFramePkg (m m' : EWasteModel) : Prop :=
  sameSkeleton m m' ∧ m'.total_waste ≤ m.total_waste ∧
  agentSum m' + m'.total_waste = agentSum m + m.total_waste ∧
  (∃ d, m'.logger = m.logger ++ d ∧ ∀ e ∈ d, isNewWaste e = false) ∧
  ((0 ≤ m.total_waste ∧ ∀ a ∈ m.agents, 0 ≤ a.counter) →
    (0 ≤ m'.total_waste ∧ ∀ a ∈ m'.agents, 0 ≤ a.counter))

theorem stepFramePkg_refl (m : EWasteModel) : stepFramePkg m m :=
  ⟨sameSkeleton_refl m, le_refl _, rfl, ⟨[], by simp, by simp⟩, fun h => h⟩

theorem stepFramePkg_trans {m1 m2 m3 : EWasteModel}
    (h1 : stepFramePkg m1 m2) (h2 : stepFramePkg m2 m3) : stepFramePkg m1 m3 := by
  obtain ⟨hs1, hw1, ha1, ⟨d1, hl1, he1⟩, hn1⟩ := h1
  obtain ⟨hs2, hw2, ha2, ⟨d2, hl2, he2⟩, hn2⟩ := h2
  refine ⟨sameSkeleton_trans hs1 hs2, hw2.trans hw1, by omega, ⟨d1 ++ d2, ?_, ?_⟩,
    fun h => hn2 (hn1 h)⟩
  · rw [hl2, hl1, List.append_assoc]
  · intro e he
    rcases List.mem_append.mp he with h | h
    · exact he1 e h
    · exact he2 e h

theorem agentSum_countersOf (m : EWasteModel) : agentSum m = (countersOf m).sum := rfl

theorem random_move_pkg (m : EWasteModel) (i : Nat) (seed : Nat) (m' : EWasteModel)
    (h : random_move m i seed = some m') : stepFramePkg m m' := by
  obtain ⟨hs, hw, hl, hc, _⟩ := random_move_frame m i seed m' h
  refine ⟨hs, le_of_eq hw, by rw [hw, agentSum_countersOf, agentSum_countersOf, hc],
    ⟨[], by simp [hl], by simp⟩, ?_⟩
  intro ⟨h1, h2⟩
  refine ⟨hw ▸ h1, ?_⟩
  rw [nonneg_iff_countersOf, hc]
  exact (nonneg_iff_countersOf m).mp h2

theorem collect_bounds (w : Int) (s : Nat) (h0 : 0 < w) :
    0 < (if w ≤ 5 then w else min (randint 1 5 s) w) ∧
    (if w ≤ 5 then w else min (randint 1 5 s) w) ≤ w := by
  split
  · exact ⟨h0, le_refl w⟩
  · have hr := randint_mem 1 5 s (by norm_num)
    have h1 : (1 : Int) ≤ min (randint 1 5 s) w := le_min hr.1 (by omega)
    exact ⟨by omega, min_le_right _ _⟩

theorem lt_length_of_get?_some (l : List AgentState) (i : Nat) (a : AgentState)
    (h : l.get? i = some a) : i < l.length := by
  by_contra hlt
  rw [List.get?_eq_none.mpr (le_of_not_lt hlt)] at h
  cases h

theorem drainFrom_pkg (srcK : AgentKind) (mkL : Nat → Int → LogEntry) (si : Nat)
    (dr : Nat → Nat) (L : List Nat) (m : EWasteModel) (hsi : si < m.agents.length)
    (hmk : ∀ c x, isNewWaste (mkL c x) = false) :
    stepFramePkg m (drainFrom srcK mkL si dr L m) := by
  obtain ⟨hs, hw⟩ := drainFrom_skeleton srcK mkL si dr L m
  obtain ⟨d, hl, he⟩ := drainFrom_logger srcK mkL si dr L m
  refine ⟨hs, le_of_eq hw, by rw [hw, drainFrom_sum srcK mkL si dr L m hsi], ⟨d, hl, ?_⟩, ?_⟩
  · intro e hed
    obtain ⟨c, x, rfl⟩ := he e hed
    exact hmk c x
  · intro ⟨h1, h2⟩
    exact ⟨hw ▸ h1, drainFrom_nonneg srcK mkL si dr L m h2⟩

theorem activate_pkg (m : EWasteModel) (i : Nat) (r : AgentRand) (m' : EWasteModel)
    (h : activateAgent m i r = some m') : stepFramePkg m m' := by
  unfold activateAgent at h
  split at h
  · cases h
    exact stepFramePkg_refl m
  · next a heq =>
    have hilen : i < m.agents.length := lt_length_of_get?_some m.agents i a heq
    split at h
    · -- collector branch
      by_cases hw : 0 < m.total_waste
      · rw [if_pos hw] at h
        refine stepFramePkg_trans ?_ (random_move_pkg _ i r.move m' h)
        have hc := collect_bounds m.total_waste (r.draws 0) hw
        refine ⟨⟨rfl, rfl, rfl, rfl, rfl, rfl, by simp [length_modifyAt]⟩,
          by dsimp only; omega, ?_, ?_, ?_⟩
        · unfold agentSum
          dsimp only
          rw [sum_map_modifyAt _ _ _ i a heq]
          dsimp only
          ring
        · refine ⟨[LogEntry.collectedLog a.unique_id _], rfl, ?_⟩
          intro e he
          rcases List.mem_singleton.mp he with rfl
          rfl
        · intro ⟨h1, h2⟩
          refine ⟨by dsimp only; omega, ?_⟩
          intro b hb
          dsimp only at hb
          rcases mem_modifyAt_of_get? _ _ _ b hb with hmem | ⟨z, hz, rfl⟩
          · exact h2 b hmem
          · have := h2 z (List.get?_mem hz)
            dsimp only
            omega
      · rw [if_neg hw] at h
        exact random_move_pkg _ i r.move m' h
    · -- sorter branch
      refine stepFramePkg_trans ?_ (random_move_pkg _ i r.move m' h)
      exact drainFrom_pkg AgentKind.collector (LogEntry.sortedLog a.unique_id) i r.draws
        (List.range m.agents.length) m hilen (fun c x => rfl)
    · -- recycler branch
      refine stepFramePkg_trans ?_ (random_move_pkg _ i r.move m' h)
      exact drainFrom_pkg AgentKind.sorter (LogEntry.recycledLog a.unique_id) i r.draws
        (List.range m.agents.length) m hilen (fun c x => rfl)

theorem scheduleStep_pkg (acts : Nat → AgentRand) (perm : List Nat) :
    ∀ m m', scheduleStep acts m perm = some m' → stepFramePkg m m' := by
  induction perm with
  | nil =>
    intro m m' h
    cases h
    exact stepFramePkg_refl m
  | cons i rest ih =>
    intro m m' h
    unfold scheduleStep at h
    split at h
    · cases h
    · next m1 h1 =>
      exact stepFramePkg_trans (activate_pkg m i (acts i) m1 h1) (ih m1 m' h)

/-! ### Lemmas about `EWasteModel.step` -/

theorem step_stop (m : EWasteModel) (r : StepRand) (h : stopCond m) :
    m.step r = some (stopPhase (headerPhase m)) := by
  have h2 : stopCond (headerPhase m) := h
  unfold EWasteModel.step
  rw [if_pos h2]

theorem stopStep_fields (m : EWasteModel) :
    (stopPhase (headerPhase m)).running = false ∧
    (stopPhase (headerPhase m)).total_waste = m.total_waste ∧
    (stopPhase (headerPhase m)).current_step = m.current_step ∧
    (stopPhase (headerPhase m)).max_steps = m.max_steps ∧
    (stopPhase (headerPhase m)).agents = m.agents ∧
    (stopPhase (headerPhase m)).metrics = m.metrics ∧
    (stopPhase (headerPhase m)).width = m.width ∧
    (stopPhase (headerPhase m)).height = m.height ∧
    ∃ d, d ≠ [] ∧ (stopPhase (headerPhase m)).logger = m.logger ++ d ∧
      ∀ e ∈ d, isNewWaste e = false := by
  unfold stopPhase headerPhase
  dsimp only
  split
  · split
    · exact ⟨rfl, rfl, rfl, rfl, rfl, rfl, rfl, rfl,
        ⟨[LogEntry.stepHeader (m.current_step + 1), LogEntry.wasteAtStart m.total_waste,
          LogEntry.stoppedMaxSteps, LogEntry.stoppedAllProcessed], by simp,
          by simp, by simp [isNewWaste]⟩⟩
    · exact ⟨rfl, rfl, rfl, rfl, rfl, rfl, rfl, rfl,
        ⟨[LogEntry.stepHeader (m.current_step + 1), LogEntry.wasteAtStart m.total_waste,
          LogEntry.stoppedMaxSteps], by simp, by simp, by simp [isNewWaste]⟩⟩
  · split
    · exact ⟨rfl, rfl, rfl, rfl, rfl, rfl, rfl, rfl,
        ⟨[LogEntry.stepHeader (m.current_step + 1), LogEntry.wasteAtStart m.total_waste,
          LogEntry.stoppedAllProcessed], by simp, by simp, by simp [isNewWaste]⟩⟩
    · exact ⟨rfl, rfl, rfl, rfl, rfl, rfl, rfl, rfl,
        ⟨[LogEntry.stepHeader (m.current_step + 1), LogEntry.wasteAtStart m.total_waste],
          by simp, by simp, by simp [isNewWaste]⟩⟩

theorem step_run (m : EWasteModel) (r : StepRand) (m' : EWasteModel) (hns : ¬ stopCond m)
    (h : m.step r = some m') :
    ∃ m3, scheduleStep r.acts (regenPhase (headerPhase m) r.regen) r.perm = some m3 ∧
      m' = { m3 with
        metrics := m3.metrics ++ [collectMetrics m3],
        logger := m3.logger ++ [LogEntry.summary m3.total_waste, LogEntry.separator],
        current_step := m3.current_step + 1 } := by
  have hns2 : ¬ stopCond (headerPhase m) := hns
  unfold EWasteModel.step at h
  rw [if_neg hns2] at h
  split at h
  · cases h
  · next m3 h3 =>
    cases h
    exact ⟨m3, h3, rfl⟩

theorem regenPhase_fields (m : EWasteModel) (seed : Nat) :
    (regenPhase m seed).running = m.running ∧
    (regenPhase m seed).current_step = m.current_step ∧
    (regenPhase m seed).max_steps = m.max_steps ∧
    (regenPhase m seed).agents = m.agents ∧
    (regenPhase m seed).metrics = m.metrics ∧
    (regenPhase m seed).width = m.width ∧
    (regenPhase m seed).height = m.height := by
  unfold regenPhase
  split <;> exact ⟨rfl, rfl, rfl, rfl, rfl, rfl, rfl⟩

theorem regenPhase_pos (m : EWasteModel) (seed : Nat) (h : 5 < m.total_waste) :
    (regenPhase m seed).total_waste = m.total_waste + randint 5 10 seed ∧
    (regenPhase m seed).logger = m.logger ++ [LogEntry.newWaste (randint 5 10 seed)] := by
  unfold regenPhase
  rw [if_pos h]
  exact ⟨rfl, rfl⟩

theorem regenPhase_neg (m : EWasteModel) (seed : Nat) (h : ¬ 5 < m.total_waste) :
    regenPhase m seed = m := by
  unfold regenPhase
  rw [if_neg h]

theorem step_cases (m : EWasteModel) (r : StepRand) (m' : EWasteModel)
    (h : m.step r = some m') :
    (stopCond m ∧ m'.running = false ∧ m'.total_waste = m.total_waste ∧
      m'.current_step = m.current_step ∧ m'.max_steps = m.max_steps ∧
      m'.agents = m.agents ∧ m'.metrics = m.metrics ∧
      ∃ d, d ≠ [] ∧ m'.logger = m.logger ++ d ∧ ∀ e ∈ d, isNewWaste e = false) ∨
    (¬ stopCond m ∧ m'.running = m.running ∧ m'.current_step = m.current_step + 1 ∧
      m'.max_steps = m.max_steps) := by
  by_cases hs : stopCond m
  · left
    rw [step_stop m r hs] at h
    cases h
    obtain ⟨h1, h2, h3, h4, h5, h6, _, _, hd⟩ := stopStep_fields m
    exact ⟨hs, h1, h2, h3, h4, h5, h6, hd⟩
  · right
    obtain ⟨m3, h3, rfl⟩ := step_run m r m' hs h
    obtain ⟨⟨_, _, hms, hcs, _, hrun, _⟩, _⟩ := scheduleStep_pkg r.acts r.perm _ m3 h3
    obtain ⟨hrrun, hrcs, hrms, _, _, _, _⟩ := regenPhase_fields (headerPhase m) r.regen
    refine ⟨hs, ?_, ?_, ?_⟩
    · show m3.running = m.running
      rw [hrun, hrrun]
      rfl
    · show m3.current_step + 1 = m.current_step + 1
      rw [hcs, hrcs]
      rfl
    · show m3.max_steps = m.max_steps
      rw [hms, hrms]
      rfl

theorem step_nonneg (m : EWasteModel) (r : StepRand) (m' : EWasteModel)
    (h : m.step r = some m') (hw : 0 ≤ m.total_waste)
    (hc : ∀ a ∈ m.agents, 0 ≤ a.counter) :
    0 ≤ m'.total_waste ∧ ∀ a ∈ m'.agents, 0 ≤ a.counter := by
  by_cases hs : stopCond m
  · rw [step_stop m r hs] at h
    cases h
    obtain ⟨_, h2, _, _, h5, _, _, _, _⟩ := stopStep_fields m
    rw [h2, h5]
    exact ⟨hw, hc⟩
  · obtain ⟨m3, h3, rfl⟩ := step_run m r m' hs h
    have hpkg := scheduleStep_pkg r.acts r.perm _ m3 h3
    have hreg : 0 ≤ (regenPhase (headerPhase m) r.regen).total_waste ∧
        ∀ a ∈ (regenPhase (headerPhase m) r.regen).agents, 0 ≤ a.counter := by
      by_cases h5 : 5 < (headerPhase m).total_waste
      · obtain ⟨hwq, _⟩ := regenPhase_pos (headerPhase m) r.regen h5
        have hr := randint_mem 5 10 r.regen (by norm_num)
        obtain ⟨_, _, _, hag, _, _, _⟩ := regenPhase_fields (headerPhase m) r.regen
        constructor
        · have hhw : (headerPhase m).total_waste = m.total_waste := rfl
          rw [hwq]
          omega
        · rw [hag]
          exact hc
      · rw [regenPhase_neg _ _ h5]
        exact ⟨hw, hc⟩
    have hres := hpkg.2.2.2.2 hreg
    exact ⟨hres.1, hres.2⟩

theorem step_conserve (m : EWasteModel) (r : StepRand) (m' : EWasteModel)
    (h : m.step r = some m')
    (hinv : agentSum m + m.total_waste = 100 + regenSum m.logger) :
    agentSum m' + m'.total_waste = 100 + regenSum m'.logger := by
  by_cases hs : stopCond m
  · rw [step_stop m r hs] at h
    cases h
    obtain ⟨_, h2, _, _, h5, _, _, _, d, _, hld, hnd⟩ := stopStep_fields m
    have hag : agentSum (stopPhase (headerPhase m)) = agentSum m := by
      unfold agentSum
      rw [h5]
    rw [hag, h2, hld, regenSum_append, regenSum_of_noNew d hnd]
    omega
  · obtain ⟨m3, h3, rfl⟩ := step_run m r m' hs h
    have hpkg := scheduleStep_pkg r.acts r.perm _ m3 h3
    have hhl : (headerPhase m).logger = m.logger ++
        [LogEntry.stepHeader (m.current_step + 1), LogEntry.wasteAtStart m.total_waste] := rfl
    have hreg2 : regenSum (headerPhase m).logger = regenSum m.logger := by
      have hz : regenSum [LogEntry.stepHeader (m.current_step + 1),
          LogEntry.wasteAtStart m.total_waste] = 0 := by
        simp [regenSum]
      rw [hhl, regenSum_append]
      omega
    have hhw : (headerPhase m).total_waste = m.total_waste := rfl
    have hhag : agentSum (headerPhase m) = agentSum m := rfl
    have hm2 : agentSum (regenPhase (headerPhase m) r.regen) +
        (regenPhase (headerPhase m) r.regen).total_waste =
        100 + regenSum (regenPhase (headerPhase m) r.regen).logger := by
      by_cases h5 : 5 < (headerPhase m).total_waste
      · obtain ⟨hwq, hlq⟩ := regenPhase_pos (headerPhase m) r.regen h5
        obtain ⟨_, _, _, hag, _, _, _⟩ := regenPhase_fields (headerPhase m) r.regen
        have hagsum : agentSum (regenPhase (headerPhase m) r.regen) = agentSum m := by
          unfold agentSum
          rw [hag]
          rfl
        have hnew : regenSum [LogEntry.newWaste (randint 5 10 r.regen)] =
            randint 5 10 r.regen := by
          simp [regenSum]
        rw [hagsum, hwq, hlq, regenSum_append, hnew, hreg2, hhw]
        omega
      · rw [regenPhase_neg _ _ h5, hhag, hreg2, hhw]
        exact hinv
    obtain ⟨_, _, hsum3, ⟨d3, hl3, hn3⟩, _⟩ := hpkg
    have hreg3 : regenSum m3.logger =
        regenSum (regenPhase (headerPhase m) r.regen).logger := by
      rw [hl3, regenSum_append, regenSum_of_noNew d3 hn3]
      omega
    have hag4 : agentSum { m3 with
        metrics := m3.metrics ++ [collectMetrics m3],
        logger := m3.logger ++ [LogEntry.summary m3.total_waste, LogEntry.separator],
        current_step := m3.current_step + 1 } = agentSum m3 := rfl
    have hreg4 : regenSum (m3.logger ++
        [LogEntry.summary m3.total_waste, LogEntry.separator]) = regenSum m3.logger := by
      have hz : regenSum [LogEntry.summary m3.total_waste, LogEntry.separator] = 0 := by
        simp [regenSum]
      rw [regenSum_append]
      omega
    show agentSum _ + m3.total_waste = 100 + regenSum (m3.logger ++
      [LogEntry.summary m3.total_waste, LogEntry.separator])
    rw [hag4, hreg4, hreg3]
    omega

/-! ### Reachability and iterated runs -/

theorem reachable_invariant (P : EWasteModel → Prop)
    (hP : ∀ m r m', P m → m.step r = some m' → P m')
    (init : EWasteModel) (h0 : P init) :
    ∀ m, Reachable init m → P m := by
  intro m h
  induction h with
  | refl => exact h0
  | step r a a' ha hstep ih => exact hP a r a' ih hstep

theorem reachable_trans (a b c : EWasteModel) (h1 : Reachable a b) (h2 : Reachable b c) :
    Reachable a c := by
  induction h2 with
  | refl => exact h1
  | step r x x' hx hstep ih => exact Reachable.step r x x' ih hstep

theorem runSteps_reachable (rs : List StepRand) :
    ∀ init m, runSteps init rs = some m → Reachable init m := by
  induction rs with
  | nil =>
    intro init m h
    cases h
    exact Reachable.refl
  | cons r rs ih =>
    intro init m h
    unfold runSteps at h
    split at h
    · cases h
    · next m1 h1 =>
      exact reachable_trans init m1 m (Reachable.step r init m1 Reachable.refl h1) (ih m1 m h)

theorem step_J (m : EWasteModel) (r : StepRand) (m' : EWasteModel)
    (h : m.step r = some m') (hJ : m.running = false → stopCond m) :
    m'.running = false → stopCond m' := by
  rcases step_cases m r m' h with ⟨hs, _, hw, hcs, hms, _, _, _⟩ | ⟨hs, hrun, _, _⟩
  · intro _
    unfold stopCond at hs ⊢
    rw [hw, hcs, hms]
    exact hs
  · intro hf
    rw [hrun] at hf
    exact absurd (hJ hf) hs

theorem step_le (m : EWasteModel) (r : StepRand) (m' : EWasteModel)
    (h : m.step r = some m') (hle : m.current_step ≤ m.max_steps) :
    m'.current_step ≤ m'.max_steps := by
  rcases step_cases m r m' h with ⟨_, _, _, hcs, hms, _, _, _⟩ | ⟨hs, _, hcs, hms⟩
  · rw [hcs, hms]
    exact hle
  · unfold stopCond at hs
    push_neg at hs
    rw [hcs, hms]
    omega

theorem run_le (rs : List StepRand) :
    ∀ m m', runSteps m rs = some m' → m.current_step ≤ m.max_steps →
      m'.current_step ≤ m'.max_steps := by
  induction rs with
  | nil =>
    intro m m' h hle
    cases h
    exact hle
  | cons r rs ih =>
    intro m m' h hle
    unfold runSteps at h
    split at h
    · cases h
    · next m1 h1 => exact ih m1 m' h (step_le m r m1 h1 hle)

theorem run_J (rs : List StepRand) :
    ∀ m m', runSteps m rs = some m' → (m.running = false → stopCond m) →
      (m'.running = false → stopCond m') := by
  induction rs with
  | nil =>
    intro m m' h hJ
    cases h
    exact hJ
  | cons r rs ih =>
    intro m m' h hJ
    unfold runSteps at h
    split at h
    · cases h
    · next m1 h1 => exact ih m1 m' h (step_J m r m1 h1 hJ)

theorem run_running_count (rs : List StepRand) :
    ∀ m m', runSteps m rs = some m' → m'.running = true →
      m.running = true ∧ m'.current_step = m.current_step + rs.length ∧
      m'.max_steps = m.max_steps := by
  induction rs with
  | nil =>
    intro m m' h htrue
    cases h
    exact ⟨htrue, by simp, rfl⟩
  | cons r rs ih =>
    intro m m' h htrue
    unfold runSteps at h
    split at h
    · cases h
    · next m1 h1 =>
      obtain ⟨h1run, hcs, hms⟩ := ih m1 m' h htrue
      rcases step_cases m r m1 h1 with ⟨_, hrf, _, _, _, _, _, _⟩ | ⟨_, hrun, hcs1, hms1⟩
      · rw [hrf] at h1run
        cases h1run
      · rw [hrun] at h1run
        refine ⟨h1run, ?_, hms1 ▸ hms⟩
        rw [hcs, hcs1, List.length_cons]
        omega

theorem step_stopped_detail (m : EWasteModel) (r : StepRand) (h : stopCond m) :
    ∃ m', m.step r = some m' ∧ m'.running = false ∧ m'.total_waste = m.total_waste ∧
      m'.current_step = m.current_step ∧ m'.max_steps = m.max_steps ∧
      m'.agents = m.agents ∧ m'.metrics = m.metrics ∧
      ∃ d, d ≠ [] ∧ m'.logger = m.logger ++ d ∧ ∀ e ∈ d, isNewWaste e = false := by
  obtain ⟨h1, h2, h3, h4, h5, h6, _, _, hd⟩ := stopStep_fields m
  exact ⟨stopPhase (headerPhase m), step_stop m r h, h1, h2, h3, h4, h5, h6, hd⟩

/-! ### Facts about the initial model -/

theorem initModel_counter_zero (w h nc ns nr ms : Nat) (f : Nat → Nat × Nat) :
    ∀ a ∈ (initModel w h nc ns nr ms f).agents, a.counter = 0 := by
  intro a ha
  unfold initModel at ha
  dsimp only at ha
  rcases List.mem_append.mp ha with h1 | h1
  · rcases List.mem_append.mp h1 with h2 | h2 <;>
      · obtain ⟨k, _, rfl⟩ := List.mem_map.mp h2
        rfl
  · obtain ⟨k, _, rfl⟩ := List.mem_map.mp h1
    rfl

theorem initModel_agentSum (w h nc ns nr ms : Nat) (f : Nat → Nat × Nat) :
    agentSum (initModel w h nc ns nr ms f) = 0 := by
  unfold agentSum
  apply List.sum_eq_zero
  intro x hx
  obtain ⟨a, ha, rfl⟩ := List.mem_map.mp hx
  exact initModel_counter_zero w h nc ns nr ms f a ha

/-! ### Concrete probe inputs used by witnesses and counterexamples -/

/-- A fixed activation oracle: every draw seed 0, move seed 0. -/
def probeRand : AgentRand := ⟨fun _ => 0, 0⟩

/-- A fixed step oracle with the identity activation order. -/
def probeStep : StepRand := ⟨0, [0, 1, 2], fun _ => probeRand⟩

/-- A small freshly constructed model: 2×2 grid, one agent of each kind. -/
def probeInit : EWasteModel := initModel 2 2 1 1 1 5 (fun _ => (0, 0))

/-- The state after one step of `probeInit`. -/
def probeNext : EWasteModel := (probeInit.step probeStep).getD probeInit

/-- A model constructed with `max_steps = 0`: its first step stops it. -/
def stopProbeInit : EWasteModel := initModel 2 2 0 0 0 0 (fun _ => (0, 0))

/-- The stopped state after one step of `stopProbeInit`. -/
def stopProbeNext : EWasteModel := (stopProbeInit.step probeStep).getD stopProbeInit

/-! ### C2 -/

/-- C2: in every state reachable from the initial model by any sequence of
steps and any random draws, `total_waste ≥ 0` and every agent's counter
(`collected_waste`, `sorted_waste` or `recycled_waste`) is ≥ 0. -/
theorem C2_nonneg_invariant (w h nc ns nr ms : Nat) (f : Nat → Nat × Nat)
    (m : EWasteModel) (hr : Reachable (initModel w h nc ns nr ms f) m) :
    0 ≤ m.total_waste ∧ ∀ a ∈ m.agents, 0 ≤ a.counter := by
  refine reachable_invariant
    (fun x => 0 ≤ x.total_waste ∧ ∀ a ∈ x.agents, 0 ≤ a.counter)
    (fun x r x' hx hstep => step_nonneg x r x' hstep hx.1 hx.2)
    (initModel w h nc ns nr ms f) ⟨?_, ?_⟩ m hr
  · show (0 : Int) ≤ 100
    norm_num
  · intro a ha
    rw [initModel_counter_zero w h nc ns nr ms f a ha]

theorem C2_nonneg_invariant_witness :
    0 ≤ probeNext.total_waste ∧ ∀ a ∈ probeNext.agents, 0 ≤ a.counter :=
  C2_nonneg_invariant 2 2 1 1 1 5 (fun _ => (0, 0)) probeNext
    (Reachable.step probeStep probeInit probeNext Reachable.refl (by decide))

/-! ### C3 -/

/-- C3: in every reachable state, the sum of all agent counters plus
`total_waste` never exceeds 100 plus the sum of all regeneration draws made
so far (recorded in the log): nothing is created or destroyed outside
collection and regeneration. -/
theorem C3_conservation_bound (w h nc ns nr ms : Nat) (f : Nat → Nat × Nat)
    (m : EWasteModel) (hr : Reachable (initModel w h nc ns nr ms f) m) :
    agentSum m + m.total_waste ≤ 100 + regenSum m.logger := by
  have heq := reachable_invariant
    (fun x => agentSum x + x.total_waste = 100 + regenSum x.logger)
    (fun x r x' hx hstep => step_conserve x r x' hstep hx)
    (initModel w h nc ns nr ms f) ?_ m hr
  · exact le_of_eq heq
  · show agentSum (initModel w h nc ns nr ms f) + (initModel w h nc ns nr ms f).total_waste =
      100 + regenSum (initModel w h nc ns nr ms f).logger
    rw [initModel_agentSum]
    show (0 : Int) + 100 = 100 + regenSum []
    simp [regenSum]

theorem C3_conservation_bound_witness :
    agentSum probeNext + probeNext.total_waste ≤ 100 + regenSum probeNext.logger :=
  C3_conservation_bound 2 2 1 1 1 5 (fun _ => (0, 0)) probeNext
    (Reachable.step probeStep probeInit probeNext Reachable.refl (by decide))

/-! ### C5 -/

/-- C5: a step taken while `current_step ≥ max_steps` or `total_waste ≤ 0`
holds at its start transitions the model to Stopped (`running` becomes
false) and performs no regeneration, no scheduler activation (agents are
untouched), no metrics collection, and no increment of `current_step`. -/
theorem C5_stop_transition (m : EWasteModel) (r : StepRand) (m' : EWasteModel)
    (hstop : stopCond m) (h : m.step r = some m') :
    m'.running = false ∧ m'.total_waste = m.total_waste ∧
    m'.current_step = m.current_step ∧ m'.agents = m.agents ∧
    m'.metrics = m.metrics ∧ ∀ e ∈ logDelta m m', isNewWaste e = false := by
  obtain ⟨m2, hm2, h1, h2, h3, _, h5, h6, d, _, hld, hnd⟩ := step_stopped_detail m r hstop
  rw [hm2] at h
  cases h
  refine ⟨h1, h2, h3, h5, h6, ?_⟩
  unfold logDelta
  rw [hld, List.drop_left]
  exact hnd

theorem C5_stop_transition_witness :
    stopProbeNext.running = false ∧
    stopProbeNext.total_waste = stopProbeInit.total_waste ∧
    stopProbeNext.current_step = stopProbeInit.current_step ∧
    stopProbeNext.agents = stopProbeInit.agents ∧
    stopProbeNext.metrics = stopProbeInit.metrics ∧
    ∀ e ∈ logDelta stopProbeInit stopProbeNext, isNewWaste e = false :=
  C5_stop_transition stopProbeInit probeStep stopProbeNext (by decide) (by decide)

/-! ### C7 -/

theorem random_move_some (m : EWasteModel) (i : Nat) (seed : Nat) (m' : EWasteModel)
    (a : AgentState) (ha : m.agents.get? i = some a) (h : random_move m i seed = some m') :
    ∃ q, q ∈ getNeighborhood m.width m.height a.pos ∧
      m' = { m with agents := modifyAt (fun s => { s with pos := q }) m.agents i } := by
  unfold random_move at h
  split at h
  · next heq =>
    rw [ha] at heq
    cases heq
  · next b heq =>
    rw [ha] at heq
    cases heq
    split at h
    · cases h
    · next q hq =>
      cases h
      exact ⟨q, randomChoice_mem _ _ _ hq, rfl⟩

/-- C7: a Collector's step: if the pool is 0 it changes no counter and no
pool and only relocates; otherwise it draws uniformly from [1,5], clamps the
draw by the pool, overrides it to exactly the pool when the pool is at most
5, adds that amount to its own counter and subtracts it from the pool. -/
theorem C7_collector_step (m : EWasteModel) (i : Nat) (a : AgentState) (r : AgentRand)
    (m' : EWasteModel) (ha : m.agents.get? i = some a)
    (hk : a.kind = AgentKind.collector) (h : activateAgent m i r = some m') :
    (m.total_waste = 0 →
      m'.total_waste = m.total_waste ∧ m'.logger = m.logger ∧
      ∃ q, q ∈ getNeighborhood m.width m.height a.pos ∧
        m' = { m with agents := modifyAt (fun s => { s with pos := q }) m.agents i }) ∧
    (0 < m.total_waste →
      1 ≤ randint 1 5 (r.draws 0) ∧ randint 1 5 (r.draws 0) ≤ 5 ∧
      counterAt m' i = some (a.counter + collectAmt m r) ∧
      m'.total_waste = m.total_waste - collectAmt m r) := by
  unfold activateAgent at h
  split at h
  · next heq =>
    rw [ha] at heq
    cases heq
  · next b heq =>
    rw [ha] at heq
    cases heq
    split at h
    · constructor
      · intro hw0
        rw [if_neg (by omega)] at h
        obtain ⟨q, hq, rfl⟩ := random_move_some m i r.move _ a ha h
        exact ⟨rfl, rfl, q, hq, rfl⟩
      · intro hw
        rw [if_pos hw] at h
        obtain ⟨_, hwq, _, _, hcnt⟩ := random_move_frame _ i r.move m' h
        have hr := randint_mem 1 5 (r.draws 0) (by norm_num)
        refine ⟨hr.1, hr.2, ?_, ?_⟩
        · unfold counterAt
          rw [hcnt i]
          show ((modifyAt (fun s => { s with counter := s.counter +
            (if m.total_waste ≤ 5 then m.total_waste
              else min (randint 1 5 (r.draws 0)) m.total_waste) })
            m.agents i).get? i).map AgentState.counter = _
          rw [get?_modifyAt_self _ _ i a ha]
          unfold collectAmt
          rfl
        · rw [hwq]
          unfold collectAmt
          rfl
    · next heq2 =>
      rw [hk] at heq2
      cases heq2
    · next heq2 =>
      rw [hk] at heq2
      cases heq2

/-- One collector on a 2×2 grid with the full pool, used as a probe. -/
def c7m : EWasteModel :=
  { width := 2, height := 2,
    agents := [⟨1, AgentKind.collector, 0, (0, 0)⟩],
    max_steps := 5, current_step := 0, total_waste := 100,
    logger := [], metrics := [], running := true }

/-- The state after activating `c7m`'s collector. -/
def c7next : EWasteModel := (activateAgent c7m 0 probeRand).getD c7m

theorem C7_collector_step_witness :
    (c7m.total_waste = 0 →
      c7next.total_waste = c7m.total_waste ∧ c7next.logger = c7m.logger ∧
      ∃ q, q ∈ getNeighborhood c7m.width c7m.height (0, 0) ∧
        c7next = { c7m with
          agents := modifyAt (fun s => { s with pos := q }) c7m.agents 0 }) ∧
    (0 < c7m.total_waste →
      1 ≤ randint 1 5 (probeRand.draws 0) ∧ randint 1 5 (probeRand.draws 0) ≤ 5 ∧
      counterAt c7next 0 = some (0 + collectAmt c7m probeRand) ∧
      c7next.total_waste = c7m.total_waste - collectAmt c7m probeRand) :=
  C7_collector_step c7m 0 ⟨1, AgentKind.collector, 0, (0, 0)⟩ probeRand c7next
    (by decide) rfl (by decide)

/-! ### C10 -/

theorem random_move_none (m : EWasteModel) (i : Nat) (seed : Nat) (a : AgentState)
    (ha : m.agents.get? i = some a)
    (hempty : getNeighborhood m.width m.height a.pos = []) :
    random_move m i seed = none := by
  unfold random_move
  split
  · next heq =>
    rw [ha] at heq
    cases heq
  · next b heq =>
    rw [ha] at heq
    cases heq
    rw [hempty]
    rfl

theorem get?_of_shape_back (m mX : EWasteModel) (k : Nat)
    (h : (mX.agents.get? k).map shapeOf = (m.agents.get? k).map shapeOf)
    (a : AgentState) (ha : m.agents.get? k = some a) :
    ∃ a', mX.agents.get? k = some a' ∧ a'.pos = a.pos := by
  rw [ha] at h
  rcases hX : mX.agents.get? k with _ | a'
  · rw [hX] at h
    simp at h
  · rw [hX] at h
    simp only [Option.map_some', Option.some.injEq, shapeOf, Prod.mk.injEq] at h
    exact ⟨a', rfl, h.2.2⟩

/-- C10: on a 1×1 grid an agent's step is not total: the Moore neighborhood
with the center excluded and no wraparound is empty, and the uniform choice
from that empty collection faults (the activation returns `none`) instead of
falling back to staying in place. -/
theorem C10_degenerate_grid_faults (m : EWasteModel) (i : Nat) (a : AgentState)
    (r : AgentRand) (hw : m.width = 1) (hh : m.height = 1)
    (ha : m.agents.get? i = some a) (hp : a.pos = (0, 0)) :
    getNeighborhood m.width m.height a.pos = [] ∧ activateAgent m i r = none := by
  have hn : getNeighborhood m.width m.height a.pos = [] := by
    rw [hw, hh, hp]
    rfl
  refine ⟨hn, ?_⟩
  unfold activateAgent
  split
  · next heq =>
    rw [ha] at heq
    cases heq
  · next b heq =>
    rw [ha] at heq
    cases heq
    split
    · -- collector: transfer (if any) keeps width, height and the agent's cell
      by_cases hw0 : 0 < m.total_waste
      · rw [if_pos hw0]
        refine random_move_none _ i r.move
          ({ a with counter := a.counter +
            (if m.total_waste ≤ 5 then m.total_waste
              else min (randint 1 5 (r.draws 0)) m.total_waste) }) ?_ ?_
        · exact get?_modifyAt_self _ m.agents i a ha
        · show getNeighborhood m.width m.height a.pos = []
          exact hn
      · rw [if_neg hw0]
        exact random_move_none m i r.move a ha hn
    · -- sorter: the drain keeps width, height and every agent's cell
      obtain ⟨a', ha', hp'⟩ := get?_of_shape_back m _ i
        (drainFrom_shape AgentKind.collector (LogEntry.sortedLog a.unique_id) i r.draws
          (List.range m.agents.length) m i) a ha
      obtain ⟨⟨hwidth, hheight, _⟩, _⟩ := drainFrom_skeleton AgentKind.collector
        (LogEntry.sortedLog a.unique_id) i r.draws (List.range m.agents.length) m
      refine random_move_none _ i r.move a' ha' ?_
      rw [hwidth, hheight, hp']
      exact hn
    · -- recycler: same argument
      obtain ⟨a', ha', hp'⟩ := get?_of_shape_back m _ i
        (drainFrom_shape AgentKind.sorter (LogEntry.recycledLog a.unique_id) i r.draws
          (List.range m.agents.length) m i) a ha
      obtain ⟨⟨hwidth, hheight, _⟩, _⟩ := drainFrom_skeleton AgentKind.sorter
        (LogEntry.recycledLog a.unique_id) i r.draws (List.range m.agents.length) m
      refine random_move_none _ i r.move a' ha' ?_
      rw [hwidth, hheight, hp']
      exact hn

/-- One collector on a 1×1 grid. -/
def c10m : EWasteModel :=
  { width := 1, height := 1,
    agents := [⟨1, AgentKind.collector, 0, (0, 0)⟩],
    max_steps := 5, current_step := 0, total_waste := 100,
    logger := [], metrics := [], running := true }

theorem C10_degenerate_grid_faults_witness :
    getNeighborhood c10m.width c10m.height (0, 0) = [] ∧
    activateAgent c10m 0 probeRand = none :=
  C10_degenerate_grid_faults c10m 0 ⟨1, AgentKind.collector, 0, (0, 0)⟩ probeRand
    rfl rfl (by decide) rfl

/-! ### C4 -/

/-- C4: on a step taken while the model has not met the stop condition,
regeneration occurs if and only if `total_waste > 5` at that point; when it
occurs it adds a uniformly drawn integer in [5,10] to the pool; when
`total_waste ≤ 5` the pool is not increased that step, only possibly
decreased by Collectors. -/
theorem C4_regen_gating (m : EWasteModel) (r : StepRand) (m' : EWasteModel)
    (hns : ¬ stopCond m) (h : m.step r = some m') :
    ((∃ x, LogEntry.newWaste x ∈ logDelta m m') ↔ 5 < m.total_waste) ∧
    (5 < m.total_waste →
      5 ≤ randint 5 10 r.regen ∧ randint 5 10 r.regen ≤ 10 ∧
      (regenPhase (headerPhase m) r.regen).total_waste =
        m.total_waste + randint 5 10 r.regen ∧
      LogEntry.newWaste (randint 5 10 r.regen) ∈ logDelta m m') ∧
    (m.total_waste ≤ 5 → m'.total_waste ≤ m.total_waste) := by
  obtain ⟨m3, h3, hm'⟩ := step_run m r m' hns h
  obtain ⟨_, hwle, _, ⟨d3, hl3, hn3⟩, _⟩ := scheduleStep_pkg r.acts r.perm _ m3 h3
  have hlogm' : m'.logger =
      m3.logger ++ [LogEntry.summary m3.total_waste, LogEntry.separator] := by
    rw [hm']
  have hwm' : m'.total_waste = m3.total_waste := by
    rw [hm']
  have hhl : (headerPhase m).logger = m.logger ++
      [LogEntry.stepHeader (m.current_step + 1), LogEntry.wasteAtStart m.total_waste] := rfl
  by_cases h5 : 5 < m.total_waste
  · have h5h : 5 < (headerPhase m).total_waste := h5
    obtain ⟨hwq, hlq⟩ := regenPhase_pos (headerPhase m) r.regen h5h
    have hdelta : logDelta m m' =
        [LogEntry.stepHeader (m.current_step + 1), LogEntry.wasteAtStart m.total_waste,
          LogEntry.newWaste (randint 5 10 r.regen)] ++
        (d3 ++ [LogEntry.summary m3.total_waste, LogEntry.separator]) := by
      unfold logDelta
      have hfull : m'.logger = m.logger ++
          ([LogEntry.stepHeader (m.current_step + 1), LogEntry.wasteAtStart m.total_waste,
            LogEntry.newWaste (randint 5 10 r.regen)] ++
          (d3 ++ [LogEntry.summary m3.total_waste, LogEntry.separator])) := by
        rw [hlogm', hl3, hlq, hhl]
        simp [List.append_assoc]
      rw [hfull, List.drop_left]
    have hr := randint_mem 5 10 r.regen (by norm_num)
    refine ⟨⟨fun _ => h5, fun _ => ⟨randint 5 10 r.regen, ?_⟩⟩,
      fun _ => ⟨hr.1, hr.2, by rw [hwq]; rfl, ?_⟩, fun hle => absurd h5 (not_lt.mpr hle)⟩
    · rw [hdelta]
      simp
    · rw [hdelta]
      simp
  · have h5h : ¬ 5 < (headerPhase m).total_waste := h5
    rw [regenPhase_neg (headerPhase m) r.regen h5h] at hwle hl3
    have hdelta : logDelta m m' =
        [LogEntry.stepHeader (m.current_step + 1), LogEntry.wasteAtStart m.total_waste] ++
        (d3 ++ [LogEntry.summary m3.total_waste, LogEntry.separator]) := by
      unfold logDelta
      have hfull : m'.logger = m.logger ++
          ([LogEntry.stepHeader (m.current_step + 1), LogEntry.wasteAtStart m.total_waste] ++
          (d3 ++ [LogEntry.summary m3.total_waste, LogEntry.separator])) := by
        rw [hlogm', hl3, hhl]
        simp [List.append_assoc]
      rw [hfull, List.drop_left]
    have hall : ∀ e ∈ ([LogEntry.stepHeader (m.current_step + 1),
        LogEntry.wasteAtStart m.total_waste] ++ (d3 ++ [LogEntry.summary m3.total_waste,
        LogEntry.separator])), isNewWaste e = false := by
      intro e he
      rcases List.mem_append.mp he with h1 | h1
      · simp only [List.mem_cons, List.not_mem_nil, or_false] at h1
        rcases h1 with rfl | rfl <;> rfl
      · rcases List.mem_append.mp h1 with h2 | h2
        · exact hn3 e h2
        · simp only [List.mem_cons, List.not_mem_nil, or_false] at h2
          rcases h2 with rfl | rfl <;> rfl
    refine ⟨⟨?_, fun hx => absurd hx h5⟩, fun hx => absurd hx h5, fun _ => ?_⟩
    · rintro ⟨x, hx⟩
      rw [hdelta] at hx
      have hfalse := hall _ hx
      simp [isNewWaste] at hfalse
    · rw [hwm']
      exact hwle

theorem C4_regen_gating_witness :
    ((∃ x, LogEntry.newWaste x ∈ logDelta probeInit probeNext) ↔
      5 < probeInit.total_waste) ∧
    (5 < probeInit.total_waste →
      5 ≤ randint 5 10 probeStep.regen ∧ randint 5 10 probeStep.regen ≤ 10 ∧
      (regenPhase (headerPhase probeInit) probeStep.regen).total_waste =
        probeInit.total_waste + randint 5 10 probeStep.regen ∧
      LogEntry.newWaste (randint 5 10 probeStep.regen) ∈ logDelta probeInit probeNext) ∧
    (probeInit.total_waste ≤ 5 → probeNext.total_waste ≤ probeInit.total_waste) :=
  C4_regen_gating probeInit probeStep probeNext (by decide) (by decide)

/-! ### C1 -/

/-- Two collectors holding 3 units each plus one sorter, empty pool. -/
def c1m : EWasteModel :=
  { width := 2, height := 2,
    agents := [⟨1, AgentKind.collector, 3, (0, 0)⟩, ⟨2, AgentKind.collector, 3, (0, 0)⟩,
      ⟨3, AgentKind.sorter, 0, (1, 1)⟩],
    max_steps := 5, current_step := 0, total_waste := 0,
    logger := [], metrics := [], running := true }

/-- C1 counterexample: the collector at index 0 holds 3 (positive and at
most 5) when the sorter processes it, the sorter's prior counter is 0, yet
after the sorter's step the sorter's counter is 6, not 0 + 3: a single
sorter activation drains several collectors, so its counter does not
increase by exactly one collector's prior value. -/
theorem C1_fanin_counterexample :
    counterAt c1m 0 = some 3 ∧ counterAt c1m 2 = some 0 ∧
    (activateAgent c1m 2 probeRand).map (fun m' => counterAt m' 2) = some (some 6) ∧
    ¬ ((6 : Int) = 0 + 3) := by decide

/-- C1 (amended): for every SortingAgent activation and every
CollectionAgent holding a positive counter of at most 5 at the moment the
sorter processes it, after the sorter's step that collector's counter is
exactly 0 and the sorter's counter has increased by at least the collector's
prior value (the activation may drain several collectors; the increase is
the total drained, and exactly this collector's prior value went to the
sorter). -/
theorem C1_sorter_drains_small_collector (m : EWasteModel) (i j : Nat)
    (a b : AgentState) (r : AgentRand) (m' : EWasteModel)
    (hi : m.agents.get? i = some a) (hk : a.kind = AgentKind.sorter)
    (hj : m.agents.get? j = some b) (hjk : b.kind = AgentKind.collector)
    (h0 : 0 < b.counter) (h5 : b.counter ≤ 5)
    (h : activateAgent m i r = some m') :
    counterAt m' j = some 0 ∧
    ∃ c', counterAt m' i = some c' ∧ a.counter + b.counter ≤ c' := by
  unfold activateAgent at h
  split at h
  · next heq =>
    rw [hi] at heq
    cases heq
  · next a2 heq =>
    rw [hi] at heq
    cases heq
    split at h
    · next heq2 =>
      rw [hk] at heq2
      cases heq2
    · -- sorter branch
      have hjlen : j < m.agents.length := lt_length_of_get?_some _ _ _ hj
      have hks : ¬ a.kind = AgentKind.collector := by
        rw [hk]
        intro hh
        cases hh
      obtain ⟨hz, c', hc', hle⟩ := drainFrom_drains AgentKind.collector
        (LogEntry.sortedLog a.unique_id) i r.draws (List.range m.agents.length) m j b a
        (List.nodup_range m.agents.length) (List.mem_range.mpr hjlen) hj hjk h0 h5 hi hks
      obtain ⟨_, _, _, _, hcnt⟩ := random_move_frame _ i r.move m' h
      constructor
      · unfold counterAt at hz ⊢
        rw [hcnt j]
        exact hz
      · refine ⟨c', ?_, hle⟩
        unfold counterAt at hc' ⊢
        rw [hcnt i]
        exact hc'
    · next heq2 =>
      rw [hk] at heq2
      cases heq2

/-- One collector at 3 and one sorter at 4, used as the C1 witness probe. -/
def c1wm : EWasteModel :=
  { width := 2, height := 2,
    agents := [⟨1, AgentKind.collector, 3, (0, 0)⟩, ⟨2, AgentKind.sorter, 4, (1, 1)⟩],
    max_steps := 5, current_step := 0, total_waste := 0,
    logger := [], metrics := [], running := true }

/-- The state after activating `c1wm`'s sorter. -/
def c1wnext : EWasteModel := (activateAgent c1wm 1 probeRand).getD c1wm

theorem C1_sorter_drains_small_collector_witness :
    counterAt c1wnext 0 = some 0 ∧
    ∃ c', counterAt c1wnext 1 = some c' ∧ (4 : Int) + 3 ≤ c' :=
  C1_sorter_drains_small_collector c1wm 1 0
    ⟨2, AgentKind.sorter, 4, (1, 1)⟩ ⟨1, AgentKind.collector, 3, (0, 0)⟩ probeRand c1wnext
    (by decide) rfl (by decide) rfl (by decide) (by decide) (by decide)

/-! ### C6 -/

/-- C6 counterexample: a stopped model's further step is not a no-op on the
entire state: the event log grows (the step header, pool record and
stop-condition records are appended again). -/
theorem C6_stopped_step_counterexample :
    stopProbeNext.running = false ∧
    ¬ ((stopProbeNext.step probeStep).map EWasteModel.logger =
      some stopProbeNext.logger) := by decide

/-- C6 (amended): once the model is Stopped, a further `step` call leaves
`total_waste`, `current_step`, all agent counters and positions, and the
collected metrics unchanged and keeps `running` false, but it is not a
complete no-op: each call appends a non-empty batch of records (the step
header and the stop-condition messages) to the event log. -/
theorem C6_stopped_step_frame (w h nc ns nr ms : Nat) (f : Nat → Nat × Nat)
    (m : EWasteModel) (hr : Reachable (initModel w h nc ns nr ms f) m)
    (hrun : m.running = false) (r : StepRand) :
    ∃ m', m.step r = some m' ∧ m'.running = false ∧
      m'.total_waste = m.total_waste ∧ m'.current_step = m.current_step ∧
      m'.agents = m.agents ∧ m'.metrics = m.metrics ∧
      ∃ d, d ≠ [] ∧ m'.logger = m.logger ++ d := by
  have hstop : stopCond m := by
    have hJ := reachable_invariant (fun x => x.running = false → stopCond x)
      (fun x r2 x' hx hstep => step_J x r2 x' hstep hx)
      (initModel w h nc ns nr ms f) (by intro hff; simp [initModel] at hff) m hr
    exact hJ hrun
  obtain ⟨m', h1, h2, h3, h4, _, h6, h7, d, hne, hld, _⟩ := step_stopped_detail m r hstop
  exact ⟨m', h1, h2, h3, h4, h6, h7, d, hne, hld⟩

theorem C6_stopped_step_frame_witness :
    ∃ m', stopProbeNext.step probeStep = some m' ∧ m'.running = false ∧
      m'.total_waste = stopProbeNext.total_waste ∧
      m'.current_step = stopProbeNext.current_step ∧
      m'.agents = stopProbeNext.agents ∧ m'.metrics = stopProbeNext.metrics ∧
      ∃ d, d ≠ [] ∧ m'.logger = stopProbeNext.logger ++ d :=
  C6_stopped_step_frame 2 2 0 0 0 0 (fun _ => (0, 0)) stopProbeNext
    (Reachable.step probeStep stopProbeInit stopProbeNext Reachable.refl (by decide))
    (by decide) probeStep

/-! ### C9 -/

theorem filterMap_guard {β : Type} (p : AgentState → Prop) [DecidablePred p]
    (g : AgentState → β) (l : List AgentState) :
    l.filterMap (fun b => if p b then some (g b) else none) =
      (l.filter fun b => decide (p b)).map g := by
  induction l with
  | nil => rfl
  | cons x t ih =>
    by_cases hx : p x
    · simp [List.filterMap_cons, List.filter_cons, hx, ih]
    · simp [List.filterMap_cons, List.filter_cons, hx, ih]

/-- Two collectors (ids 1 and 2) and one sorter (id 3) with one unit in the
pool, used for the C9 counterexample. -/
def c9m : EWasteModel :=
  { width := 2, height := 2,
    agents := [⟨1, AgentKind.collector, 3, (0, 0)⟩, ⟨2, AgentKind.collector, 4, (0, 0)⟩,
      ⟨3, AgentKind.sorter, 0, (1, 1)⟩],
    max_steps := 5, current_step := 0, total_waste := 1,
    logger := [], metrics := [], running := true }

/-- A step oracle whose activation order visits collector id 2 before
collector id 1. -/
def c9r : StepRand := ⟨0, [1, 0, 2], fun _ => probeRand⟩

/-- C9 counterexample: this step's activation-order snapshot visits the
collectors as [2, 1], yet the sorter's drain records name them as [1, 2]:
the sorter iterates the scheduler's maintained insertion-order list, not the
per-step permutation. -/
theorem C9_iteration_order_counterexample :
    permCollectorIds c9m c9r.perm = [2, 1] ∧
    (c9m.step c9r).map (fun m' => sortedSources (logDelta c9m m')) = some [1, 2] ∧
    ¬ (([1, 2] : List Nat) = [2, 1]) := by decide

/-- C9 (amended): during a single SortingAgent activation, the collectors
it drains are iterated in the scheduler's maintained agent-list order
(insertion order = creation order), independent of the per-step activation
permutation: the drain records name exactly the collectors holding a
positive counter, in list order. -/
theorem C9_iteration_creation_order (m : EWasteModel) (i : Nat) (a : AgentState)
    (r : AgentRand) (m' : EWasteModel) (hi : m.agents.get? i = some a)
    (hk : a.kind = AgentKind.sorter) (h : activateAgent m i r = some m') :
    sortedSources (logDelta m m') =
      (m.agents.filter fun b =>
        decide (b.kind = AgentKind.collector ∧ 0 < b.counter)).map AgentState.unique_id := by
  unfold activateAgent at h
  split at h
  · next heq =>
    rw [hi] at heq
    cases heq
  · next a2 heq =>
    rw [hi] at heq
    cases heq
    split at h
    · next heq2 =>
      rw [hk] at heq2
      cases heq2
    · obtain ⟨_, _, hlog, _, _⟩ := random_move_frame _ i r.move m' h
      have hself : ∀ b, m.agents.get? i = some b → ¬ b.kind = AgentKind.collector := by
        intro b hb
        rw [hi] at hb
        cases hb
        rw [hk]
        intro hh
        cases hh
      have hsrc := drainFrom_sources AgentKind.collector (LogEntry.sortedLog a.unique_id) i
        r.draws sortedSourceOf (fun c x => rfl) (List.range m.agents.length) m
        (List.nodup_range m.agents.length) hself
      unfold sortedSources logDelta
      rw [hlog, hsrc, filterMap_range_get?]
      exact filterMap_guard (fun b => b.kind = AgentKind.collector ∧ 0 < b.counter)
        AgentState.unique_id m.agents
    · next heq2 =>
      rw [hk] at heq2
      cases heq2

/-- The state after activating `c1m`'s sorter directly. -/
def c9wnext : EWasteModel := (activateAgent c1m 2 probeRand).getD c1m

theorem C9_iteration_creation_order_witness :
    sortedSources (logDelta c1m c9wnext) =
      (c1m.agents.filter fun b =>
        decide (b.kind = AgentKind.collector ∧ 0 < b.counter)).map AgentState.unique_id :=
  C9_iteration_creation_order c1m 2 ⟨3, AgentKind.sorter, 0, (1, 1)⟩ probeRand c9wnext
    (by decide) rfl (by decide)

/-! ### C8 -/

/-- The initial model with no agents, the full pool of 100, `max_steps = 200`. -/
def c8init : EWasteModel := initModel 2 2 0 0 0 200 (fun _ => (0, 0))

set_option maxRecDepth 10000 in
/-- C8 counterexample: a run of the initial model (total_waste = 100,
max_steps = 200) in which, after exactly 200 step calls, the model is still
Running: with regeneration outpacing collection the pool never empties, and
the 200th working step leaves `running` true — only the 201st call would
transition to Stopped. -/
theorem C8_termination_counterexample :
    (List.replicate 200 probeStep).length = 200 ∧
    (runSteps c8init (List.replicate 200 probeStep)).map EWasteModel.running =
      some true := by
  constructor
  · simp
  · decide

/-- C8 (amended): for every run starting from the initial model
(total_waste = 100) with max_steps = 200 and every sequence of random draws,
the model is Stopped after at most 201 step calls (at most 200 calls perform
work; the call after the 200th working step transitions to Stopped), and
being Stopped is permanent: a further step call keeps `running` false,
changes no agent counter and no pool, and logs no regeneration. -/
theorem C8_termination_bound (w h nc ns nr : Nat) (f : Nat → Nat × Nat)
    (rs : List StepRand) (m : EWasteModel)
    (hrun : runSteps (initModel w h nc ns nr 200 f) rs = some m)
    (hlen : 201 ≤ rs.length) :
    m.running = false ∧
    ∀ r m2, m.step r = some m2 →
      m2.running = false ∧ countersOf m2 = countersOf m ∧
      m2.total_waste = m.total_waste ∧
      ∀ e ∈ logDelta m m2, isNewWaste e = false := by
  have h0 : (initModel w h nc ns nr 200 f).current_step = 0 := rfl
  have hms0 : (initModel w h nc ns nr 200 f).max_steps = 200 := rfl
  have hfalse : m.running = false := by
    cases hmr : m.running
    · rfl
    · exfalso
      obtain ⟨_, hcs, hms⟩ := run_running_count rs _ m hrun hmr
      have hle := run_le rs _ m hrun (by rw [h0, hms0]; omega)
      rw [h0] at hcs
      rw [hms0] at hms
      omega
  have hstop : stopCond m := by
    have hJ := run_J rs _ m hrun (by intro hff; simp [initModel] at hff)
    exact hJ hfalse
  refine ⟨hfalse, ?_⟩
  intro r m2 h2
  obtain ⟨m2b, hm2b, hb1, hb2, hb3, _, hb5, _, d, _, hld, hnd⟩ := step_stopped_detail m r hstop
  rw [hm2b] at h2
  cases h2
  refine ⟨hb1, ?_, hb2, ?_⟩
  · unfold countersOf
    rw [hb5]
  · unfold logDelta
    rw [hld, List.drop_left]
    exact hnd

/-- A 201-call random-draw sequence. -/
def c8rs : List StepRand := List.replicate 201 probeStep

set_option maxRecDepth 10000 in
theorem C8_termination_bound_witness :
    (runSteps c8init c8rs).map EWasteModel.running = some false := by
  cases hrun : runSteps c8init c8rs with
  | none =>
    have hsome : (runSteps c8init c8rs).isSome = true := by decide
    rw [hrun] at hsome
    cases hsome
  | some mf =>
    rw [Option.map_some',
      (C8_termination_bound 2 2 0 0 0 (fun _ => (0, 0)) c8rs mf hrun (by simp [c8rs])).1]
